import Mathlib

/-!
A verification development for the tournament-record reconciliation pipeline
(`fetch_tournaments.py` and `export_ics.py`).

The Python functions are shallowly embedded as executable Lean definitions.
Conventions of the embedding:

* Calendar dates are modelled as integers counting days (`ℤ`); `timedelta`
  arithmetic on dates is exact day arithmetic, and `date.isoformat` is an
  injective rendering of a date, modelled by `toString` on the day number.
* Python strings are Lean `String`s; character-level processing is done on
  `List Char`.  Python's `\s` / `str.strip` whitespace class is modelled by
  `Char.isWhitespace`, `\w` (regex word characters) by ASCII alphanumerics
  plus underscore, and `str.upper` / `str.lower` by the ASCII
  `Char.toUpper` / `Char.toLower` (all strings the pipeline's rules compare
  against are ASCII).
* `unicodedata.normalize("NFKD", s).encode("ascii", "ignore")` inside `slug`
  is modelled as dropping non-ASCII code points (accent folding is not
  modelled; no claim below depends on the treatment of non-ASCII letters).
* `re.sub(r"\s+", " ", ...)` replaces each maximal whitespace run by a
  single space; it is embedded as a left-to-right scan that emits `' '` at
  the first character of a run and skips the rest.
* Python floats produced by `jaccard` are modelled as exact rationals `ℚ`.
  Every similarity value is a quotient of small integer cardinalities and
  every threshold in the source is a short decimal literal; at the values
  the claims are about (27/100, 28/100) IEEE-754 division is correctly
  rounded, so the float comparisons of the source and the rational
  comparisons of the model agree.
-/

/-! ### Character utilities -/

def isWs (c : Char) : Bool := c.isWhitespace

/-- Python regex word character `\w`, restricted to ASCII: `[a-zA-Z0-9_]`. -/
def isWordChar (c : Char) : Bool := c.isAlpha || c.isDigit || c = '_'

/-- `str.strip()`: drop whitespace from both ends. -/
def stripChars (l : List Char) : List Char :=
  ((l.dropWhile isWs).reverse.dropWhile isWs).reverse

/-- `re.sub(r"\s+", " ", ·)`: each maximal whitespace run becomes one `' '`.
`prevWs` records whether the previous character was whitespace. -/
def collapseWsAux (prevWs : Bool) : List Char → List Char
  | [] => []
  | c :: rest =>
    if isWs c then
      if prevWs then collapseWsAux true rest else ' ' :: collapseWsAux true rest
    else c :: collapseWsAux false rest

/-- `norm_spaces` of `fetch_tournaments.py`:
`re.sub(r"\s+", " ", (s or "").strip())`. -/
def norm_spaces (s : String) : String :=
  ⟨collapseWsAux false (stripChars s.data)⟩

/-- `str.strip()` on strings. -/
def stripStr (s : String) : String := ⟨stripChars s.data⟩

/-- `str.upper()` (ASCII). -/
def upperStr (s : String) : String := ⟨s.data.map Char.toUpper⟩

/-- Does `pat` occur at the start of `l`? (`str.startswith`). -/
def listStartsWith : List Char → List Char → Bool
  | [], _ => true
  | _ :: _, [] => false
  | p :: ps, c :: cs => p = c && listStartsWith ps cs

/-- Python's `pat in s` substring test. -/
def hasSubstr (pat : List Char) : List Char → Bool
  | [] => listStartsWith pat []
  | c :: rest => listStartsWith pat (c :: rest) || hasSubstr pat rest

/-- `s.replace("Tukey", "Turkey")`: left-to-right, non-overlapping. -/
def replaceTukey : List Char → List Char
  | 'T' :: 'u' :: 'k' :: 'e' :: 'y' :: rest =>
      'T' :: 'u' :: 'r' :: 'k' :: 'e' :: 'y' :: replaceTukey rest
  | c :: rest => c :: replaceTukey rest
  | [] => []

/-- `s.split(" / ", 1)`: split at the first occurrence of `" / "`,
`none` when the separator does not occur (so `isSome` is `" / " in s`). -/
def splitFirstSlash : List Char → Option (List Char × List Char)
  | ' ' :: '/' :: ' ' :: rest => some ([], rest)
  | c :: rest =>
    match splitFirstSlash rest with
    | some (a, b) => some (c :: a, b)
    | none => none
  | [] => none

/-! ### The UI/chrome denylist (`BAD_LOCATION_RE`)

`r"(?i)\b(ical|outlook|export|subscribe|add to|google|calendar|share|print|
download|tickets?|prize fund|more info|read more|countdown)\b"` — the
optional-`s` alternative `tickets?` is expanded into the two literals
`ticket` and `tickets`.  A search hit is an occurrence of one alternative,
case-insensitively, with a non-word character (or the string edge) on both
sides; all alternatives begin and end with a letter, so the `\b`
conditions reduce to exactly that. -/

def BAD_TERMS : List (List Char) :=
  ["ical", "outlook", "export", "subscribe", "add to", "google", "calendar",
   "share", "print", "download", "ticket", "tickets", "prize fund",
   "more info", "read more", "countdown"].map String.data

/-- Case-insensitive match of the lowercase pattern `p` at the head of `l`. -/
def ciMatchAt : List Char → List Char → Bool
  | [], _ => true
  | _ :: _, [] => false
  | p :: ps, c :: cs => Char.toLower c = p && ciMatchAt ps cs

/-- Is the character right after a match of `w` a word character?
(`\b` after the group: end of string or non-word char.) -/
def afterBoundaryOk (w l : List Char) : Bool :=
  match l.drop w.length with
  | [] => true
  | d :: _ => !isWordChar d

/-- `\b` before the match: start of string or previous char non-word. -/
def beforeBoundaryOk : Option Char → Bool
  | none => true
  | some p => !isWordChar p

/-- Word-boundary search of the denylist over `l`; `prev` is the character
preceding the current position. -/
def badSearchAux (prev : Option Char) : List Char → Bool
  | [] => false
  | c :: cs =>
    (BAD_TERMS.any fun w =>
      beforeBoundaryOk prev && ciMatchAt w (c :: cs) && afterBoundaryOk w (c :: cs))
    || badSearchAux (some c) cs

/-- `BAD_LOCATION_RE.search(s)` truthiness. -/
def badLocationSearch (s : String) : Bool := badSearchAux none s.data

/-- `re.fullmatch(r"\d{1,6}", s)` truthiness. -/
def isDigits1to6 (s : String) : Bool :=
  decide (1 ≤ s.length) && decide (s.length ≤ 6) && s.data.all Char.isDigit

/-- `s.startswith(("+", "•"))`. -/
def startsPlusBullet (s : String) : Bool :=
  match s.data with
  | [] => false
  | c :: _ => c = '+' || c = '•'

/-- `is_bad_location` of `fetch_tournaments.py`. -/
def is_bad_location : Option String → Bool
  | none => true
  | some loc =>
    if loc = "" then true
    else
      let s := norm_spaces loc
      if s = "" then true
      else if isDigits1to6 s then true
      else if badLocationSearch s then true
      else if 140 < s.length then true
      else if startsPlusBullet s then true
      else false

/-- The tail of `normalize_location` shared by the slash and non-slash
paths: the `TBA` whole-string check followed by the `is_bad_location`
gate. -/
def normalizeFinish (s : String) : Option String :=
  if upperStr s = "TBA" then none
  else if is_bad_location (some s) then none
  else some s

/-- `normalize_location` of `fetch_tournaments.py`. -/
def normalize_location : Option String → Option String
  | none => none
  | some loc =>
    if loc = "" then none
    else
      let s : String := ⟨replaceTukey (norm_spaces loc).data⟩
      match splitFirstSlash s.data with
      | some (l, r) =>
        let left := stripStr ⟨l⟩
        let right := stripStr ⟨r⟩
        if upperStr left = "TBA" ∧ upperStr right = "TBA" then none
        else if upperStr left = "TBA" then
          if upperStr right = "TBA" then none else some right
        else if upperStr right = "TBA" then
          if upperStr left = "TBA" then none else some left
        else normalizeFinish (left ++ ", " ++ right)
      | none => normalizeFinish s

/-- `location_precision` of `fetch_tournaments.py`:
0 = none, 1 = no comma, 2 = has comma. -/
def location_precision : Option String → ℕ
  | none => 0
  | some loc =>
    if loc = "" then 0
    else if (norm_spaces loc).data.contains ',' then 2 else 1

/-! ### `slug`, `title_tokens`, `jaccard` -/

/-- `[a-zA-Z0-9]`. -/
def isSlugChar (c : Char) : Bool := c.isAlpha || c.isDigit

/-- `re.sub(r"[^a-zA-Z0-9]+", "-", ·)`: each maximal run of non-alphanumeric
characters becomes one `'-'`; `prevNon` records whether the previous
character was part of such a run. -/
def slugCollapseAux (prevNon : Bool) : List Char → List Char
  | [] => []
  | c :: rest =>
    if isSlugChar c then c :: slugCollapseAux false rest
    else if prevNon then slugCollapseAux true rest
    else '-' :: slugCollapseAux true rest

/-- `str.strip("-")`. -/
def stripDashes (l : List Char) : List Char :=
  ((l.dropWhile (· = '-')).reverse.dropWhile (· = '-')).reverse

/-- `slug` of `fetch_tournaments.py`.  The NFKD/ASCII-ignore step is
modelled as dropping non-ASCII code points (see the header comment). -/
def slug (s : String) : String :=
  ⟨(stripDashes (slugCollapseAux false (s.data.filter (fun c => c.toNat ≤ 127)))).map
    Char.toLower⟩

/-- One step of `re.sub(r"\b20\d{2}\b", " ", s)`: does a year token start
here? (`prev` is the preceding character, for the left `\b`.) -/
def yearAt (prev : Option Char) : List Char → Bool
  | '2' :: '0' :: d1 :: d2 :: rest =>
    beforeBoundaryOk prev && d1.isDigit && d2.isDigit &&
      (match rest with
        | [] => true
        | e :: _ => !isWordChar e)
  | _ => false

/-- `re.sub(r"\b20\d{2}\b", " ", ·)`: replace 4-digit year tokens
(with word boundaries) by a single space. -/
def stripYearsAux (prev : Option Char) : List Char → List Char
  | '2' :: '0' :: d1 :: d2 :: rest =>
    if yearAt prev ('2' :: '0' :: d1 :: d2 :: rest) then
      ' ' :: stripYearsAux (some d2) rest
    else '2' :: stripYearsAux (some '2') ('0' :: d1 :: d2 :: rest)
  | c :: rest => c :: stripYearsAux (some c) rest
  | [] => []

def stripYears (s : String) : String := ⟨stripYearsAux none s.data⟩

/-- `str.split("-")`: split at every `'-'`, keeping empty pieces (Python
semantics; `"".split("-") == [""]`). -/
def splitDash : List Char → List (List Char)
  | [] => [[]]
  | c :: rest =>
    if c = '-' then [] :: splitDash rest
    else
      match splitDash rest with
      | w :: ws => (c :: w) :: ws
      | [] => [[c]]

/-- `title_tokens` of `fetch_tournaments.py`: strip year tokens, slug,
split on hyphens, keep tokens of length ≥ 3.  The Python `set` is modelled
as the deduplicated list (only cardinalities of intersections and unions
are ever consumed). -/
def title_tokens (s : String) : List String :=
  (((splitDash (slug (stripYears s)).data).map
    (fun w => (⟨w⟩ : String))).filter (fun x => 3 ≤ x.length)).dedup

/-- `jaccard` of `fetch_tournaments.py`, with exact rational arithmetic in
place of Python floats (see the header comment). -/
def jaccard (a b : String) : ℚ :=
  let sa := title_tokens a
  let sb := title_tokens b
  if sa = [] ∨ sb = [] then 0
  else ((sa.inter sb).length : ℚ) / ((sa.union sb).length : ℚ)

/-! ### The record model and the Entity Resolver -/

/-- `Tournament` of `fetch_tournaments.py` (a frozen dataclass).  Dates are
day numbers (`ℤ`). -/
structure Tournament where
  title : String
  organizer : String
  start : ℤ
  endd : ℤ
  location : Option String
  tour : Option String
  source : String
  source_url : String
deriving DecidableEq, Repr

/-- The dedup identity key `f"{slug(t.title)}|{t.start_iso}"`; `isoformat`
is modelled by `toString` on the day number (both injective renderings). -/
def dedupKey (t : Tournament) : String :=
  slug t.title ++ "|" ++ toString t.start

/-- Python truthiness of an `Optional[str]`. -/
def optTruthy : Option String → Bool
  | none => false
  | some s => decide (s ≠ "")

/-- `choose_better` of `fetch_tournaments.py`. -/
def choose_better (a b : Tournament) : Tournament :=
  let pa := location_precision a.location
  let pb := location_precision b.location
  if pa < pb then b
  else if pb < pa then a
  else if ¬ optTruthy a.location ∧ optTruthy b.location then
    { a with location := b.location }
  else a

/-- One step of the `seen` dict of `dedup`: update the value at `key` via
`choose_better` when present (keeping its insertion position), else append
at the end.  The association list is the dict in insertion order. -/
def dedupInsert (seen : List (String × Tournament)) (key : String)
    (t : Tournament) : List (String × Tournament) :=
  match seen with
  | [] => [(key, t)]
  | (k, u) :: rest =>
    if k = key then (k, choose_better u t) :: rest
    else (k, u) :: dedupInsert rest key t

/-- `dedup` of `fetch_tournaments.py`: fold the records into the
insertion-ordered dict, then `list(seen.values())`. -/
def dedup (ts : List Tournament) : List Tournament :=
  (ts.foldl (fun seen t => dedupInsert seen (dedupKey t) t) []).map Prod.snd

/-! ### The Cross-Fill Resolver -/

/-- The inner candidate loop of `cross_fill_locations` for the record `t`
at position `i`: fold over the (position, record) pairs sharing `t.start`,
tracking `(best_loc, best_score)`.  `c is t` (object identity: the dedup
output holds pairwise-distinct objects) is modelled as position equality. -/
def bestFill (t : Tournament) (i : ℕ) (cands : List (ℕ × Tournament)) :
    Option String × ℚ :=
  cands.foldl
    (fun best jc =>
      if jc.1 = i then best
      else if location_precision jc.2.location ≠ 2 then best
      else if 1 < |jc.2.endd - t.endd| then best
      else
        let sim := jaccard t.title jc.2.title
        if sim < 28 / 100 then best
        else if best.2 < sim then (jc.2.location, sim) else best)
    (none, 0)

/-- `cross_fill_locations` of `fetch_tournaments.py`.  `by_start[t.start]`
is the sublist of (position, record) pairs with the same start date, in
input order. -/
def cross_fill_locations (ts : List Tournament) : List Tournament :=
  let indexed := ts.enum
  indexed.map fun it =>
    let t := it.2
    if location_precision t.location = 2 then t
    else
      let cands := indexed.filter (fun jc => jc.2.start = t.start)
      let best := bestFill t it.1 cands
      match best.1 with
      | some bl =>
        if bl ≠ "" ∧ t.location ≠ some bl then { t with location := some bl }
        else t
      | none => t

/-! ### The Conflict Detector (`export_ics.py`) -/

/-- A spreadsheet row as consumed by `build_conflict_set` (the fields the
function reads: the day-span and the title used in the sort key). -/
structure Row where
  start : ℤ
  endd : ℤ
  title : String
deriving DecidableEq, Repr

/-- The Python sort key `(start, end, title)` under tuple (lexicographic)
comparison. -/
def rowKey (x : ℕ × Row) : ℤ ×ₗ (ℤ ×ₗ String) :=
  toLex (x.2.start, toLex (x.2.endd, x.2.title))

/-- Boolean `≤` on sort keys, used by the model's `mergeSort`. -/
def rowKeyLe (x y : ℕ × Row) : Bool := decide (rowKey x ≤ rowKey y)

/-- The inner `for j in range(i+1, ...)` loop of `build_conflict_set`:
scan forward from `a`, breaking at the first `b` with
`b.start > a.end`, inserting both indices at each inclusive overlap. -/
def innerScan (a : ℕ × Row) : List (ℕ × Row) → Finset ℕ → Finset ℕ
  | [], acc => acc
  | b :: bs, acc =>
    if a.2.endd < b.2.start then acc
    else
      innerScan a bs
        (if a.2.start ≤ b.2.endd ∧ b.2.start ≤ a.2.endd then
          insert a.1 (insert b.1 acc)
        else acc)

/-- The outer loop of `build_conflict_set`. -/
def sweep : List (ℕ × Row) → Finset ℕ → Finset ℕ
  | [], acc => acc
  | a :: rest, acc => sweep rest (innerScan a rest acc)

/-- `build_conflict_set` of `export_ics.py`: enumerate, sort by
`(start, end, title)`, forward sweep with early break. -/
def build_conflict_set (rows : List Row) : Finset ℕ :=
  sweep (rows.enum.mergeSort rowKeyLe) ∅

/-- Inclusive day-span overlap: the test
`a["start"] <= b["end"] and b["start"] <= a["end"]` of the source, which is
exactly "the two inclusive spans share at least one day". -/
def overlaps (a b : Row) : Prop := a.start ≤ b.endd ∧ b.start ≤ a.endd

instance : DecidablePred fun p : Row × Row => overlaps p.1 p.2 := by
  intro p; unfold overlaps; infer_instance

/-! ### The WPA iCal end-date computation -/

/-- The end-date computation of `fetch_wpa_ics`:
`end_d = start_d if dtend is None else (ics_dt_to_date(dtend) - timedelta(days=1))`. -/
def wpaEndDate (start_d : ℤ) (dtend : Option ℤ) : ℤ :=
  match dtend with
  | none => start_d
  | some d => d - 1

/-! ### Fixed points of `norm_spaces`

`norm_spaces` output is *clean*: every whitespace character is a single
`' '`, no two adjacent whitespace characters, none at either end.  Clean
strings are fixed points of `norm_spaces`; `replaceTukey` preserves
cleanliness.  These facts drive the idempotence and non-emptiness
theorems below. -/

def allWsSpace (l : List Char) : Prop := ∀ c ∈ l, isWs c = true → c = ' '

def noWsRun (l : List Char) : Prop :=
  l.Chain' fun a b => isWs a = false ∨ isWs b = false

def noLeadWs (l : List Char) : Prop := ∀ c ∈ l.head?, isWs c = false

def noTrailWs (l : List Char) : Prop :=
  ∀ c, l.getLast? = some c → isWs c = false

/-- Cleanliness: the characterization of `norm_spaces` fixed points. -/
def CleanChars (l : List Char) : Prop :=
  allWsSpace l ∧ noWsRun l ∧ noLeadWs l ∧ noTrailWs l

/-- The cleaned form used by `normalize_location` before its slash
handling: `norm_spaces(loc).replace("Tukey", "Turkey")`. -/
def tukeyNormed (x : String) : String := ⟨replaceTukey (norm_spaces x).data⟩

/-- What `normalize_location` feeds to its final `TBA`/`is_bad_location`
checks: the `"Left, Right"` rewriting when a `" / "` separator is present,
the cleaned string itself otherwise. -/
def slashJoined (s : String) : String :=
  match splitFirstSlash s.data with
  | some (l, r) => stripStr ⟨l⟩ ++ ", " ++ stripStr ⟨r⟩
  | none => s

/-- The slash-`TBA` short-circuit of `normalize_location` fires: a `" / "`
separator is present and at least one side strips/uppercases to `"TBA"`. -/
def tbaShortCircuit (s : String) : Prop :=
  ∃ l r, splitFirstSlash s.data = some (l, r) ∧
    (upperStr (stripStr ⟨l⟩) = "TBA" ∨ upperStr (stripStr ⟨r⟩) = "TBA")

/-- Equality of all `Tournament` fields except `location`. -/
def sameExceptLocation (u v : Tournament) : Prop :=
  u.title = v.title ∧ u.organizer = v.organizer ∧ u.start = v.start ∧
    u.endd = v.endd ∧ u.tour = v.tour ∧ u.source = v.source ∧
    u.source_url = v.source_url

theorem allWsSpace_collapseWsAux (p : Bool) (l : List Char) :
    allWsSpace (collapseWsAux p l) := by
  induction p, l using collapseWsAux.induct with
  | case1 p => intro c hc; simp [collapseWsAux] at hc
  | case2 c rest hws ih =>
    simpa [collapseWsAux, hws] using ih
  | case3 p c rest hws hp ih =>
    intro d hd hdws
    simp [collapseWsAux, hws, hp] at hd
    rcases hd with rfl | hd
    · rfl
    · exact ih d hd hdws
  | case4 p c rest hws ih =>
    intro d hd hdws
    simp [collapseWsAux, hws] at hd
    rcases hd with rfl | hd
    · exact absurd hdws (by simpa using hws)
    · exact ih d hd hdws

theorem noLeadWs_collapseWsAux_true (l : List Char) :
    noLeadWs (collapseWsAux true l) := by
  induction l with
  | nil => intro c hc; simp [collapseWsAux] at hc
  | cons c rest ih =>
    by_cases h : isWs c
    · simpa [collapseWsAux, h] using ih
    · intro d hd
      simp [collapseWsAux, h] at hd
      simpa [hd] using h

theorem noWsRun_collapseWsAux (p : Bool) (l : List Char) :
    noWsRun (collapseWsAux p l) := by
  induction p, l using collapseWsAux.induct with
  | case1 p => simp [collapseWsAux, noWsRun]
  | case2 c rest hws ih => simpa [collapseWsAux, hws] using ih
  | case3 p c rest hws hp ih =>
    have hlead := noLeadWs_collapseWsAux_true rest
    unfold noWsRun at ih ⊢
    rw [collapseWsAux, if_pos hws, if_neg hp, List.chain'_cons']
    exact ⟨fun y hy => Or.inr (hlead y hy), ih⟩
  | case4 p c rest hws ih =>
    unfold noWsRun at ih ⊢
    rw [collapseWsAux, if_neg hws, List.chain'_cons']
    exact ⟨fun y _ => Or.inl (by simpa using hws), ih⟩

theorem collapseWsAux_ne_nil (p : Bool) (l : List Char) (c : Char)
    (hc : c ∈ l) (hcw : isWs c = false) : collapseWsAux p l ≠ [] := by
  induction p, l using collapseWsAux.induct with
  | case1 p => simp at hc
  | case2 d rest hws ih =>
    rw [collapseWsAux, if_pos hws, if_pos rfl]
    rcases List.mem_cons.1 hc with rfl | hmem
    · exact absurd hws (by simp [hcw])
    · exact ih hmem
  | case3 p d rest hws hp ih =>
    simp [collapseWsAux, hws, hp]
  | case4 p d rest hws ih =>
    simp [collapseWsAux, hws]

theorem getLast?_cons_ne (c : Char) {l : List Char} (h : l ≠ []) :
    (c :: l).getLast? = l.getLast? := by
  cases l with
  | nil => exact absurd rfl h
  | cons b l' => simp

theorem noTrailWs_tail {c : Char} {l : List Char}
    (h : noTrailWs (c :: l)) : noTrailWs l := by
  rcases eq_or_ne l [] with rfl | hne
  · intro d hd; simp at hd
  · intro d hd
    exact h d (by rw [getLast?_cons_ne c hne]; exact hd)

theorem noTrailWs_collapseWsAux (p : Bool) (l : List Char)
    (h : noTrailWs l) : noTrailWs (collapseWsAux p l) := by
  induction p, l using collapseWsAux.induct with
  | case1 p => intro c hc; simp [collapseWsAux] at hc
  | case2 c rest hws ih =>
    rw [collapseWsAux, if_pos hws, if_pos rfl]
    exact ih (noTrailWs_tail h)
  | case3 p c rest hws hp ih =>
    rw [collapseWsAux, if_pos hws, if_neg hp]
    -- the recursive output is nonempty: `rest` ends in a non-whitespace
    -- character (if `rest = []` then `c` itself is a trailing space)
    rcases eq_or_ne rest [] with rfl | hne
    · exact absurd (h c (by simp)) (by simp [hws])
    · obtain ⟨a, ha⟩ : ∃ a, rest.getLast? = some a := by
        cases hx : rest.getLast? with
        | none => exact absurd (List.getLast?_eq_none_iff.1 hx) hne
        | some a => exact ⟨a, rfl⟩
      have haw : isWs a = false := noTrailWs_tail h a ha
      have hmem : a ∈ rest := by
        obtain ⟨ys, rfl⟩ := List.getLast?_eq_some_iff.1 ha
        simp
      have hnn := collapseWsAux_ne_nil true rest a hmem haw
      intro d hd
      rw [getLast?_cons_ne ' ' hnn] at hd
      exact ih (noTrailWs_tail h) d hd
  | case4 p c rest hws ih =>
    rw [collapseWsAux, if_neg hws]
    rcases eq_or_ne rest [] with rfl | hne
    · intro d hd
      simp [collapseWsAux] at hd
      simpa [← hd] using hws
    · obtain ⟨a, ha⟩ : ∃ a, rest.getLast? = some a := by
        cases hx : rest.getLast? with
        | none => exact absurd (List.getLast?_eq_none_iff.1 hx) hne
        | some a => exact ⟨a, rfl⟩
      have haw : isWs a = false := noTrailWs_tail h a ha
      have hmem : a ∈ rest := by
        obtain ⟨ys, rfl⟩ := List.getLast?_eq_some_iff.1 ha
        simp
      have hnn := collapseWsAux_ne_nil false rest a hmem haw
      intro d hd
      rw [getLast?_cons_ne c hnn] at hd
      exact ih (noTrailWs_tail h) d hd

theorem noLeadWs_dropWhile (l : List Char) : noLeadWs (l.dropWhile isWs) := by
  induction l with
  | nil => intro c hc; simp at hc
  | cons c rest ih =>
    by_cases h : isWs c
    · simpa [List.dropWhile_cons, h] using ih
    · intro d hd
      simp [List.dropWhile_cons, h] at hd
      simpa [← hd] using h

theorem getLast?_of_suffix {v u : List Char} (h : v <:+ u) (hne : v ≠ []) :
    u.getLast? = v.getLast? := by
  obtain ⟨pre, rfl⟩ := h
  rw [List.getLast?_append]
  cases hx : v.getLast? with
  | none => exact absurd (List.getLast?_eq_none_iff.1 hx) hne
  | some d => rfl

theorem noLeadWs_stripChars (l : List Char) : noLeadWs (stripChars l) := by
  unfold stripChars
  intro c hc
  rw [List.head?_reverse] at hc
  set w := (l.dropWhile isWs).reverse.dropWhile isWs with hw
  have hne : w ≠ [] := by
    intro hnil
    rw [hnil] at hc
    simp at hc
  -- the last element of `w` is the last of the reversed list, i.e. the
  -- head of `l.dropWhile isWs`, which is not whitespace
  have heq := getLast?_of_suffix (List.dropWhile_suffix (l := (l.dropWhile isWs).reverse) isWs) hne
  have hmc : (l.dropWhile isWs).reverse.getLast? = some c := by
    rw [heq]
    exact hc
  rw [List.getLast?_reverse] at hmc
  exact noLeadWs_dropWhile l c hmc

theorem noTrailWs_stripChars (l : List Char) : noTrailWs (stripChars l) := by
  unfold stripChars
  intro c hc
  rw [List.getLast?_reverse] at hc
  have : noLeadWs ((l.dropWhile isWs).reverse.dropWhile isWs) :=
    noLeadWs_dropWhile _
  exact this c hc

theorem dropWhile_eq_self_of_noLead {l : List Char} (h : noLeadWs l) :
    l.dropWhile isWs = l := by
  cases l with
  | nil => rfl
  | cons c rest =>
    have : isWs c = false := h c rfl
    simp [List.dropWhile_cons, this]

theorem stripChars_eq_self {l : List Char} (h1 : noLeadWs l)
    (h2 : noTrailWs l) : stripChars l = l := by
  unfold stripChars
  rw [dropWhile_eq_self_of_noLead h1]
  have hrev : noLeadWs l.reverse := by
    intro c hc
    rw [List.head?_reverse] at hc
    exact h2 c hc
  rw [dropWhile_eq_self_of_noLead hrev, List.reverse_reverse]

theorem collapseWsAux_true_eq_false {l : List Char} (h : noLeadWs l) :
    collapseWsAux true l = collapseWsAux false l := by
  cases l with
  | nil => rfl
  | cons c rest =>
    have : isWs c = false := h c rfl
    simp [collapseWsAux, this]

theorem collapseWsAux_eq_self {l : List Char} (h1 : allWsSpace l)
    (h2 : noWsRun l) (h3 : noTrailWs l) : collapseWsAux false l = l := by
  induction l with
  | nil => rfl
  | cons c rest ih =>
    have h1' : allWsSpace rest := fun d hd => h1 d (List.mem_cons_of_mem c hd)
    have h2' : noWsRun rest := (List.chain'_cons'.1 h2).2
    have h3' : noTrailWs rest := noTrailWs_tail h3
    by_cases hws : isWs c
    · have hc : c = ' ' := h1 c (List.mem_cons_self c rest) hws
      have hlead : noLeadWs rest := by
        intro d hd
        rcases (List.chain'_cons'.1 h2).1 d hd with h | h
        · exact absurd hws (by simp [h])
        · exact h
      rw [collapseWsAux, if_pos hws, if_neg (by simp),
        collapseWsAux_true_eq_false hlead, ih h1' h2' h3', hc]
    · rw [collapseWsAux, if_neg hws, ih h1' h2' h3']

theorem cleanChars_norm_spaces (s : String) : CleanChars (norm_spaces s).data := by
  refine ⟨allWsSpace_collapseWsAux false (stripChars s.data),
    noWsRun_collapseWsAux false (stripChars s.data), ?_, ?_⟩
  · -- no leading whitespace: the stripped list has none, and a `false`
    -- collapse of such a list keeps its head
    cases hx : stripChars s.data with
    | nil => intro c hc; simp [norm_spaces, hx, collapseWsAux] at hc
    | cons c rest =>
      have : isWs c = false := by
        have := noLeadWs_stripChars s.data
        rw [hx] at this
        exact this c rfl
      intro d hd
      simp only [norm_spaces, hx] at hd
      rw [collapseWsAux, if_neg (by simp [this])] at hd
      simp at hd
      simpa [← hd] using this
  · exact noTrailWs_collapseWsAux false _ (noTrailWs_stripChars s.data)

theorem norm_spaces_of_clean {s : String} (h : CleanChars s.data) :
    norm_spaces s = s := by
  obtain ⟨h1, h2, h3, h4⟩ := h
  unfold norm_spaces
  rw [stripChars_eq_self h3 h4, collapseWsAux_eq_self h1 h2 h4]

/-- `norm_spaces` is idempotent. -/
theorem norm_spaces_idem (s : String) :
    norm_spaces (norm_spaces s) = norm_spaces s :=
  norm_spaces_of_clean (cleanChars_norm_spaces s)

/-! ### `replaceTukey`: cleanliness preservation and Tukey-freedom -/

/-- Unfolding of `replaceTukey` on a cons cell that does not start a
`"Tukey"` match. -/
theorem replaceTukey_cons (c : Char) (rest : List Char)
    (hno : ∀ r : List Char, ¬(c = 'T' ∧ rest = 'u' :: 'k' :: 'e' :: 'y' :: r)) :
    replaceTukey (c :: rest) = c :: replaceTukey rest := by
  conv_lhs => rw [replaceTukey.eq_def]
  split
  · next x r heq =>
    injection heq with h1 h2
    exact absurd ⟨h1, h2⟩ (hno r)
  · next c' rest' heq =>
    injection heq with ha hb
    rw [ha, hb]
  · next heq => exact absurd heq (by simp)

theorem replaceTukey_head? (l : List Char) :
    (replaceTukey l).head? = l.head? := by
  induction l using replaceTukey.induct with
  | case1 rest ih => rfl
  | case2 c rest hno ih =>
    rw [replaceTukey_cons c rest (fun r hr => hno r hr.1 hr.2)]
    rfl
  | case3 => rfl

theorem replaceTukey_ne_nil {l : List Char} (h : l ≠ []) :
    replaceTukey l ≠ [] := by
  induction l using replaceTukey.induct with
  | case1 rest ih => simp [replaceTukey]
  | case2 c rest hno ih =>
    rw [replaceTukey_cons c rest (fun r hr => hno r hr.1 hr.2)]
    simp
  | case3 => exact absurd rfl h

theorem replaceTukey_getLast? (l : List Char) :
    (replaceTukey l).getLast? = l.getLast? := by
  induction l using replaceTukey.induct with
  | case1 rest ih =>
    rcases eq_or_ne rest [] with rfl | hne
    · rfl
    · show ('T' :: 'u' :: 'r' :: 'k' :: 'e' :: 'y' :: replaceTukey rest).getLast?
        = ('T' :: 'u' :: 'k' :: 'e' :: 'y' :: rest).getLast?
      rw [getLast?_cons_ne 'T' (by simp), getLast?_cons_ne 'u' (by simp),
        getLast?_cons_ne 'r' (by simp), getLast?_cons_ne 'k' (by simp),
        getLast?_cons_ne 'e' (by simp),
        getLast?_cons_ne 'y' (replaceTukey_ne_nil hne), ih,
        getLast?_cons_ne 'T' (by simp), getLast?_cons_ne 'u' (by simp),
        getLast?_cons_ne 'k' (by simp), getLast?_cons_ne 'e' (by simp),
        getLast?_cons_ne 'y' hne]
  | case2 c rest hno ih =>
    rw [replaceTukey_cons c rest (fun r hr => hno r hr.1 hr.2)]
    rcases eq_or_ne rest [] with rfl | hne
    · rfl
    · rw [getLast?_cons_ne c (replaceTukey_ne_nil hne), ih,
        getLast?_cons_ne c hne]
  | case3 => rfl

theorem replaceTukey_mem {c : Char} {l : List Char}
    (h : c ∈ replaceTukey l) : c ∈ l ∨ c = 'r' := by
  induction l using replaceTukey.induct with
  | case1 rest ih =>
    simp only [replaceTukey, List.mem_cons] at h
    rcases h with rfl | rfl | rfl | rfl | rfl | rfl | h
    · exact Or.inl (by simp)
    · exact Or.inl (by simp)
    · exact Or.inr rfl
    · exact Or.inl (by simp)
    · exact Or.inl (by simp)
    · exact Or.inl (by simp)
    · rcases ih h with h | h
      · exact Or.inl (by simp [h])
      · exact Or.inr h
  | case2 d rest hno ih =>
    rw [replaceTukey_cons d rest (fun r hr => hno r hr.1 hr.2),
      List.mem_cons] at h
    rcases h with rfl | h
    · exact Or.inl (by simp)
    · rcases ih h with h | h
      · exact Or.inl (by simp [h])
      · exact Or.inr h
  | case3 => simp [replaceTukey] at h

theorem allWsSpace_replaceTukey {l : List Char} (h : allWsSpace l) :
    allWsSpace (replaceTukey l) := by
  intro c hc hws
  rcases replaceTukey_mem hc with hmem | rfl
  · exact h c hmem hws
  · simp [isWs] at hws

theorem noWsRun_replaceTukey {l : List Char} (h : noWsRun l) :
    noWsRun (replaceTukey l) := by
  induction l using replaceTukey.induct with
  | case1 rest ih =>
    show List.Chain' _ ('T' :: 'u' :: 'r' :: 'k' :: 'e' :: 'y' :: replaceTukey rest)
    rw [List.chain'_cons', List.chain'_cons', List.chain'_cons',
      List.chain'_cons', List.chain'_cons', List.chain'_cons']
    refine ⟨fun y _ => Or.inl (by simp [isWs]), fun y _ => Or.inl (by simp [isWs]),
      fun y _ => Or.inl (by simp [isWs]), fun y _ => Or.inl (by simp [isWs]),
      fun y _ => Or.inl (by simp [isWs]), fun y _ => Or.inl (by simp [isWs]), ?_⟩
    have h' : noWsRun rest := by
      unfold noWsRun at h
      rw [List.chain'_cons', List.chain'_cons', List.chain'_cons',
        List.chain'_cons', List.chain'_cons'] at h
      exact h.2.2.2.2.2
    exact ih h'
  | case2 c rest hno ih =>
    rw [replaceTukey_cons c rest (fun r hr => hno r hr.1 hr.2)]
    unfold noWsRun at h ⊢
    rw [List.chain'_cons'] at h ⊢
    refine ⟨?_, ih h.2⟩
    intro y hy
    rw [replaceTukey_head?] at hy
    exact h.1 y hy
  | case3 => simp [replaceTukey, noWsRun]

theorem noLeadWs_replaceTukey {l : List Char} (h : noLeadWs l) :
    noLeadWs (replaceTukey l) := by
  intro c hc
  rw [replaceTukey_head?] at hc
  exact h c hc

theorem noTrailWs_replaceTukey {l : List Char} (h : noTrailWs l) :
    noTrailWs (replaceTukey l) := by
  intro c hc
  rw [replaceTukey_getLast?] at hc
  exact h c hc

theorem cleanChars_replaceTukey {l : List Char} (h : CleanChars l) :
    CleanChars (replaceTukey l) :=
  ⟨allWsSpace_replaceTukey h.1, noWsRun_replaceTukey h.2.1,
    noLeadWs_replaceTukey h.2.2.1, noTrailWs_replaceTukey h.2.2.2⟩

theorem listStartsWith_cons_iff {p : Char} {ps l : List Char} :
    listStartsWith (p :: ps) l = true ↔
      ∃ t, l = p :: t ∧ listStartsWith ps t = true := by
  cases l with
  | nil => simp [listStartsWith]
  | cons c cs =>
    rw [listStartsWith]
    simp only [Bool.and_eq_true, decide_eq_true_eq]
    constructor
    · rintro ⟨rfl, h⟩
      exact ⟨cs, rfl, h⟩
    · rintro ⟨t, heq, h⟩
      injection heq with h1 h2
      exact ⟨h1.symm, h2 ▸ h⟩

/-- A match of a `'T'`-free pattern at the head of a `replaceTukey` output
was already present at the head of the input. -/
theorem listStartsWith_noT_replaceTukey :
    ∀ (l pat : List Char), (∀ c ∈ pat, c ≠ 'T') →
      listStartsWith pat (replaceTukey l) = true →
      listStartsWith pat l = true := by
  intro l
  induction l using replaceTukey.induct with
  | case1 rest ih =>
    intro pat hpat h
    cases pat with
    | nil => rfl
    | cons p ps =>
      exfalso
      rw [show replaceTukey ('T' :: 'u' :: 'k' :: 'e' :: 'y' :: rest)
          = 'T' :: 'u' :: 'r' :: 'k' :: 'e' :: 'y' :: replaceTukey rest from rfl,
        listStartsWith_cons_iff] at h
      obtain ⟨t, heq, hdrop⟩ := h
      injection heq with h1 h2
      exact hpat p (by simp) h1.symm
  | case2 c rest hno ih =>
    intro pat hpat h
    rw [replaceTukey_cons c rest (fun r hr => hno r hr.1 hr.2)] at h
    cases pat with
    | nil => rfl
    | cons p ps =>
      rw [listStartsWith_cons_iff] at h ⊢
      obtain ⟨t, heq, hps⟩ := h
      injection heq with h1 h2
      refine ⟨rest, ?_, ih ps (fun d hd => hpat d (by simp [hd])) (h2 ▸ hps)⟩
      rw [h1]
  | case3 =>
    intro pat hpat h
    cases pat with
    | nil => rfl
    | cons p ps => simp [replaceTukey, listStartsWith] at h

/-- The output of `replaceTukey` never contains `"Tukey"`. -/
theorem hasSubstr_tukey_replaceTukey (l : List Char) :
    hasSubstr "Tukey".data (replaceTukey l) = false := by
  induction l using replaceTukey.induct with
  | case1 rest ih =>
    show hasSubstr "Tukey".data
      ('T' :: 'u' :: 'r' :: 'k' :: 'e' :: 'y' :: replaceTukey rest) = false
    rw [hasSubstr, hasSubstr, hasSubstr, hasSubstr, hasSubstr, hasSubstr]
    simp only [Bool.or_eq_false_iff]
    refine ⟨?_, ?_, ?_, ?_, ?_, ?_, ih⟩ <;>
      simp [listStartsWith, String.data]
  | case2 c rest hno ih =>
    rw [replaceTukey_cons c rest (fun r hr => hno r hr.1 hr.2), hasSubstr,
      Bool.or_eq_false_iff]
    refine ⟨?_, ih⟩
    by_contra hcon
    rw [Bool.not_eq_false, listStartsWith_cons_iff] at hcon
    obtain ⟨t, heq, hps⟩ := hcon
    injection heq with h1 h2
    have hrest := listStartsWith_noT_replaceTukey rest "ukey".data
      (by intro d hd; revert hd; simp [String.data]; rintro (rfl | rfl | rfl | rfl) <;> simp)
      (h2 ▸ hps)
    rw [listStartsWith_cons_iff] at hrest
    obtain ⟨t1, ht1, hrest⟩ := hrest
    rw [listStartsWith_cons_iff] at hrest
    obtain ⟨t2, ht2, hrest⟩ := hrest
    rw [listStartsWith_cons_iff] at hrest
    obtain ⟨t3, ht3, hrest⟩ := hrest
    rw [listStartsWith_cons_iff] at hrest
    obtain ⟨t4, ht4, -⟩ := hrest
    exact hno t4 (by rw [h1]) (by rw [ht1, ht2, ht3, ht4])
  | case3 => rfl

/-- `replaceTukey` is the identity on `"Tukey"`-free inputs. -/
theorem replaceTukey_eq_self {l : List Char}
    (h : hasSubstr "Tukey".data l = false) : replaceTukey l = l := by
  induction l using replaceTukey.induct with
  | case1 rest ih =>
    exfalso
    rw [hasSubstr, Bool.or_eq_false_iff] at h
    have := h.1
    simp [listStartsWith, String.data] at this
  | case2 c rest hno ih =>
    rw [hasSubstr, Bool.or_eq_false_iff] at h
    rw [replaceTukey_cons c rest (fun r hr => hno r hr.1 hr.2), ih h.2]
  | case3 => rfl

/-- `replaceTukey` is idempotent (no `"Tukey"` survives a pass). -/
theorem replaceTukey_idem (l : List Char) :
    replaceTukey (replaceTukey l) = replaceTukey l :=
  replaceTukey_eq_self (hasSubstr_tukey_replaceTukey l)

/-! ### `tukeyNormed` is a fixed point of the cleaning pipeline -/

theorem cleanChars_tukeyNormed (x : String) :
    CleanChars (tukeyNormed x).data :=
  cleanChars_replaceTukey (cleanChars_norm_spaces x)

theorem norm_spaces_tukeyNormed (x : String) :
    norm_spaces (tukeyNormed x) = tukeyNormed x :=
  norm_spaces_of_clean (cleanChars_tukeyNormed x)

theorem replaceTukey_tukeyNormed (x : String) :
    replaceTukey (tukeyNormed x).data = (tukeyNormed x).data :=
  replaceTukey_idem (norm_spaces x).data

theorem tukeyNormed_tukeyNormed (x : String) :
    tukeyNormed (tukeyNormed x) = tukeyNormed x := by
  show (⟨replaceTukey (norm_spaces (tukeyNormed x)).data⟩ : String) = tukeyNormed x
  rw [norm_spaces_tukeyNormed, replaceTukey_tukeyNormed]

/-! ### Branch lemmas for `normalize_location` -/

theorem normalize_location_eq_finish {s : String} (hs : s ≠ "")
    (hsplit : splitFirstSlash (tukeyNormed s).data = none) :
    normalize_location (some s) = normalizeFinish (tukeyNormed s) := by
  rw [show normalize_location (some s)
      = (if s = "" then none else
          match splitFirstSlash (tukeyNormed s).data with
          | some (l, r) =>
            let left := stripStr ⟨l⟩
            let right := stripStr ⟨r⟩
            if upperStr left = "TBA" ∧ upperStr right = "TBA" then none
            else if upperStr left = "TBA" then
              if upperStr right = "TBA" then none else some right
            else if upperStr right = "TBA" then
              if upperStr left = "TBA" then none else some left
            else normalizeFinish (left ++ ", " ++ right)
          | none => normalizeFinish (tukeyNormed s)) from rfl,
    if_neg hs, hsplit]

theorem normalize_location_eq_slash {s : String} {l r : List Char}
    (hs : s ≠ "")
    (hsplit : splitFirstSlash (tukeyNormed s).data = some (l, r)) :
    normalize_location (some s) =
      (if upperStr (stripStr ⟨l⟩) = "TBA" ∧ upperStr (stripStr ⟨r⟩) = "TBA"
        then none
       else if upperStr (stripStr ⟨l⟩) = "TBA" then
         if upperStr (stripStr ⟨r⟩) = "TBA" then none
         else some (stripStr ⟨r⟩)
       else if upperStr (stripStr ⟨r⟩) = "TBA" then
         if upperStr (stripStr ⟨l⟩) = "TBA" then none
         else some (stripStr ⟨l⟩)
       else normalizeFinish (stripStr ⟨l⟩ ++ ", " ++ stripStr ⟨r⟩)) := by
  rw [show normalize_location (some s)
      = (if s = "" then none else
          match splitFirstSlash (tukeyNormed s).data with
          | some (l, r) =>
            let left := stripStr ⟨l⟩
            let right := stripStr ⟨r⟩
            if upperStr left = "TBA" ∧ upperStr right = "TBA" then none
            else if upperStr left = "TBA" then
              if upperStr right = "TBA" then none else some right
            else if upperStr right = "TBA" then
              if upperStr left = "TBA" then none else some left
            else normalizeFinish (left ++ ", " ++ right)
          | none => normalizeFinish (tukeyNormed s)) from rfl,
    if_neg hs, hsplit]

theorem is_bad_location_false_ne_empty {t : String}
    (h : is_bad_location (some t) = false) : t ≠ "" := by
  intro h0
  rw [h0] at h
  simp [is_bad_location] at h

theorem is_bad_location_of_badSearch {t : String}
    (h : badLocationSearch (norm_spaces t) = true) :
    is_bad_location (some t) = true := by
  by_cases h0 : t = ""
  · simp [is_bad_location, h0]
  · simp only [is_bad_location]
    rw [if_neg h0]
    by_cases h1 : norm_spaces t = ""
    · rw [if_pos h1]
    · rw [if_neg h1]
      by_cases h2 : isDigits1to6 (norm_spaces t) = true
      · rw [if_pos h2]
      · rw [if_neg h2, if_pos h]

/-! ### Claim C5: idempotence of `normalize_location` -/

/-- C5 (counterexample): `normalize_location` is not idempotent.  On
`"TBA / 00"` the slash-`TBA` short-circuit returns the right side `"00"`
without validation, and a second application rejects `"00"` as a pure
digit string, so `normalize(normalize(x)) ≠ normalize(x)`. -/
theorem C5_counterexample :
    normalize_location (normalize_location (some "TBA / 00")) ≠
      normalize_location (some "TBA / 00") := by decide

/-- C5 (amended): `normalize_location` is idempotent on `null` and on
every string whose cleaned form (whitespace-collapsed, `"Tukey"`-corrected)
does not contain the separator `" / "`; the slash-handling paths can
return strings that re-normalize differently. -/
theorem C5_idempotent_no_slash (x : Option String)
    (hx : ∀ s : String, x = some s →
      splitFirstSlash (tukeyNormed s).data = none) :
    normalize_location (normalize_location x) = normalize_location x := by
  cases x with
  | none => rfl
  | some s =>
    by_cases hs : s = ""
    · rw [hs]
      rfl
    · have hsplit := hx s rfl
      rw [normalize_location_eq_finish hs hsplit]
      unfold normalizeFinish
      by_cases h1 : upperStr (tukeyNormed s) = "TBA"
      · rw [if_pos h1]
        rfl
      · rw [if_neg h1]
        by_cases h2 : is_bad_location (some (tukeyNormed s)) = true
        · rw [if_pos h2]
          rfl
        · rw [if_neg h2]
          have h2' : is_bad_location (some (tukeyNormed s)) = false :=
            Bool.not_eq_true _ ▸ h2
          have htne : tukeyNormed s ≠ "" := is_bad_location_false_ne_empty h2'
          have hsplit2 : splitFirstSlash (tukeyNormed (tukeyNormed s)).data = none := by
            rw [tukeyNormed_tukeyNormed]
            exact hsplit
          rw [normalize_location_eq_finish htne hsplit2, normalizeFinish,
            tukeyNormed_tukeyNormed, if_neg h1, if_neg h2]

/-- C5 (witness): the amended idempotence at the slash-free input
`"Paris"`. -/
theorem C5_witness :
    normalize_location (normalize_location (some "Paris")) =
      normalize_location (some "Paris") :=
  C5_idempotent_no_slash (some "Paris")
    (fun s hs => by
      injection hs with h
      rw [← h]
      rfl)

/-! ### Claim C4: denylist rejection -/

/-- C4 (counterexample): `"TBA / Subscribe to Calendar"` contains the
denylist terms `subscribe` and `calendar` as case-insensitive words, yet
`normalize_location` returns the non-null `"Subscribe to Calendar"`: the
slash-`TBA` short-circuit returns the surviving side without any
denylist check. -/
theorem C4_counterexample :
    badLocationSearch (norm_spaces "TBA / Subscribe to Calendar") = true ∧
      normalize_location (some "TBA / Subscribe to Calendar") =
        some "Subscribe to Calendar" := by
  constructor
  · decide
  · decide

/-- C4 (amended): if the string that `normalize_location` submits to its
final checks — the cleaned input, with `"Left / Right"` rewritten to
`"Left, Right"` when a `" / "` separator is present — contains a denylist
term as a case-insensitive word, the result is `null`, *except* on the
slash-`TBA` short-circuit (one side strips/uppercases to `"TBA"`), which
returns the surviving side unvalidated. -/
theorem C4_denylist_rejected (x : String)
    (hshort : ¬ tbaShortCircuit (tukeyNormed x))
    (hbad : badLocationSearch (norm_spaces (slashJoined (tukeyNormed x))) = true) :
    normalize_location (some x) = none := by
  by_cases hx : x = ""
  · rw [hx]
    rfl
  · cases hsplit : splitFirstSlash (tukeyNormed x).data with
    | none =>
      rw [normalize_location_eq_finish hx hsplit]
      have hj : slashJoined (tukeyNormed x) = tukeyNormed x := by
        unfold slashJoined
        rw [hsplit]
      rw [hj] at hbad
      unfold normalizeFinish
      by_cases h1 : upperStr (tukeyNormed x) = "TBA"
      · rw [if_pos h1]
      · rw [if_neg h1, if_pos (is_bad_location_of_badSearch hbad)]
    | some lr =>
      obtain ⟨l, r⟩ := lr
      rw [normalize_location_eq_slash hx hsplit]
      have hnl : ¬ upperStr (stripStr ⟨l⟩) = "TBA" := fun h =>
        hshort ⟨l, r, hsplit, Or.inl h⟩
      have hnr : ¬ upperStr (stripStr ⟨r⟩) = "TBA" := fun h =>
        hshort ⟨l, r, hsplit, Or.inr h⟩
      have hj : slashJoined (tukeyNormed x) = stripStr ⟨l⟩ ++ ", " ++ stripStr ⟨r⟩ := by
        unfold slashJoined
        rw [hsplit]
      rw [hj] at hbad
      rw [if_neg (fun h => hnl h.1), if_neg hnl, if_neg hnr]
      unfold normalizeFinish
      by_cases h1 : upperStr (stripStr ⟨l⟩ ++ ", " ++ stripStr ⟨r⟩) = "TBA"
      · rw [if_pos h1]
      · rw [if_neg h1, if_pos (is_bad_location_of_badSearch hbad)]

/-- C4 (witness): the amended rejection at `"Subscribe to Calendar"`. -/
theorem C4_witness :
    normalize_location (some "Subscribe to Calendar") = none :=
  C4_denylist_rejected "Subscribe to Calendar"
    (fun hcon => by
      obtain ⟨l, r, h, hside⟩ := hcon
      rw [show splitFirstSlash (tukeyNormed "Subscribe to Calendar").data
          = none from by decide] at h
      cases h)
    (by decide)

/-! ### Claim C7: the WPA end-date computation -/

/-- C7: the claim `end >= start` fails on the WPA iCal fetcher's end-date
computation.  For a VEVENT whose `dtend` falls on the same calendar day as
`dtstart` (any timed same-day event), the code emits
`end = dtend - 1 day < start`, violating the data model's `end >= start`
invariant and the `end: inclusive` field documentation. -/
theorem C7_wpa_end_before_start :
    wpaEndDate 0 (some 0) = -1 ∧ wpaEndDate 0 (some 0) < 0 := by
  constructor
  · rfl
  · decide

/-! ### Structure of the `" / "` split, toward the non-emptiness claim -/

theorem splitFirstSlash_cons (c : Char) (rest : List Char)
    (hno : ∀ r : List Char, ¬(c = ' ' ∧ rest = '/' :: ' ' :: r)) :
    splitFirstSlash (c :: rest) =
      match splitFirstSlash rest with
      | some (a, b) => some (c :: a, b)
      | none => none := by
  conv_lhs => rw [splitFirstSlash.eq_def]
  split
  · next x heq =>
    injection heq with h1 h2
    exact absurd ⟨h1, h2⟩ (hno x)
  · next c' rest' heq =>
    injection heq with ha hb
    rw [ha, hb]
  · next heq => exact absurd heq (by simp)

theorem splitFirstSlash_eq :
    ∀ {l a b : List Char}, splitFirstSlash l = some (a, b) →
      l = a ++ ' ' :: '/' :: ' ' :: b := by
  intro l
  induction l using splitFirstSlash.induct with
  | case1 rest =>
    intro a b h
    rw [show splitFirstSlash (' ' :: '/' :: ' ' :: rest) = some ([], rest)
      from rfl] at h
    injection h with h1
    injection h1 with ha hb
    rw [← ha, ← hb]
    rfl
  | case2 c rest hno a' b' heq ih =>
    intro a b h
    rw [splitFirstSlash_cons c rest (fun r hr => hno r hr.1 hr.2), heq] at h
    injection h with h1
    injection h1 with ha hb
    rw [← ha, ← hb, List.cons_append, ih heq]
  | case3 c rest hno hnone ih =>
    intro a b h
    rw [splitFirstSlash_cons c rest (fun r hr => hno r hr.1 hr.2), hnone] at h
    cases h
  | case4 =>
    intro a b h
    cases h

theorem mem_dropWhile_of_not {c : Char} {u : List Char}
    (hc : c ∈ u) (hcw : isWs c = false) : c ∈ u.dropWhile isWs := by
  induction u with
  | nil => simp at hc
  | cons d rest ih =>
    by_cases hd : isWs d
    · rw [List.dropWhile_cons, if_pos hd]
      rcases List.mem_cons.1 hc with rfl | hmem
      · exact absurd hd (by simp [hcw])
      · exact ih hmem
    · rw [List.dropWhile_cons, if_neg hd]
      exact hc

theorem dropWhile_ne_nil_of_mem {c : Char} {u : List Char}
    (hc : c ∈ u) (hcw : isWs c = false) : u.dropWhile isWs ≠ [] := by
  intro hnil
  have := mem_dropWhile_of_not hc hcw
  rw [hnil] at this
  simp at this

theorem mem_stripChars {c : Char} {u : List Char}
    (hc : c ∈ stripChars u) : c ∈ u := by
  unfold stripChars at hc
  rw [List.mem_reverse] at hc
  have h1 := (List.dropWhile_suffix (l := (u.dropWhile isWs).reverse) isWs).sublist.subset hc
  rw [List.mem_reverse] at h1
  exact (List.dropWhile_suffix (l := u) isWs).sublist.subset h1

theorem stripChars_ne_nil {c : Char} {u : List Char}
    (hc : c ∈ u) (hcw : isWs c = false) : stripChars u ≠ [] := by
  unfold stripChars
  have h1 : c ∈ u.dropWhile isWs := mem_dropWhile_of_not hc hcw
  have h2 : c ∈ (u.dropWhile isWs).reverse := List.mem_reverse.2 h1
  have h3 := dropWhile_ne_nil_of_mem h2 hcw
  simpa using h3

theorem noWsRun_reverse {u : List Char} (h : noWsRun u) : noWsRun u.reverse := by
  unfold noWsRun at h ⊢
  rw [List.chain'_reverse]
  exact h.imp (fun a b hab => hab.symm)

theorem noWsRun_stripChars {u : List Char} (h : noWsRun u) :
    noWsRun (stripChars u) := by
  unfold stripChars
  have h1 : noWsRun (u.dropWhile isWs) :=
    List.Chain'.suffix h (List.dropWhile_suffix isWs)
  have h2 : noWsRun (u.dropWhile isWs).reverse := noWsRun_reverse h1
  have h3 : noWsRun ((u.dropWhile isWs).reverse.dropWhile isWs) :=
    List.Chain'.suffix h2 (List.dropWhile_suffix isWs)
  exact noWsRun_reverse h3

theorem allWsSpace_stripChars {u : List Char} (h : allWsSpace u) :
    allWsSpace (stripChars u) :=
  fun c hc hw => h c (mem_stripChars hc) hw

/-- Stripping a string whose whitespace discipline is sound yields a clean
string. -/
theorem cleanChars_stripChars {u : List Char} (h1 : allWsSpace u)
    (h2 : noWsRun u) : CleanChars (stripChars u) :=
  ⟨allWsSpace_stripChars h1, noWsRun_stripChars h2,
    noLeadWs_stripChars u, noTrailWs_stripChars u⟩

/-- Joining two clean nonempty pieces with `", "` yields a clean string. -/
theorem cleanChars_join {L R : List Char} (hL : CleanChars L)
    (hR : CleanChars R) (hLne : L ≠ []) (hRne : R ≠ []) :
    CleanChars (L ++ ',' :: ' ' :: R) := by
  obtain ⟨hL1, hL2, hL3, hL4⟩ := hL
  obtain ⟨hR1, hR2, hR3, hR4⟩ := hR
  refine ⟨?_, ?_, ?_, ?_⟩
  · intro c hc hw
    rcases List.mem_append.1 hc with hmem | hmem
    · exact hL1 c hmem hw
    · rcases List.mem_cons.1 hmem with rfl | hmem
      · exact absurd hw (by simp [isWs])
      · rcases List.mem_cons.1 hmem with rfl | hmem
        · rfl
        · exact hR1 c hmem hw
  · unfold noWsRun at hL2 hR2 ⊢
    rw [List.chain'_append]
    refine ⟨hL2, ?_, ?_⟩
    · rw [List.chain'_cons', List.chain'_cons']
      refine ⟨fun y _ => Or.inl (by simp [isWs]), ?_, hR2⟩
      intro y hy
      right
      cases R with
      | nil => exact absurd rfl hRne
      | cons d rest =>
        simp at hy
        rw [← hy]
        exact hR3 d rfl
    · intro x hx y hy
      right
      simp at hy
      rw [← hy]
      simp [isWs]
  · intro x hx
    cases L with
    | nil => exact absurd rfl hLne
    | cons d rest =>
      rw [List.cons_append] at hx
      simp at hx
      rw [← hx]
      exact hL3 d rfl
  · intro c hc
    rw [List.getLast?_append] at hc
    have hR' : (',' :: ' ' :: R).getLast? = R.getLast? := by
      rw [getLast?_cons_ne ',' (by simp), getLast?_cons_ne ' ' hRne]
    rw [hR'] at hc
    cases hx : R.getLast? with
    | none => exact absurd (List.getLast?_eq_none_iff.1 hx) hRne
    | some d =>
      rw [hx] at hc
      simp at hc
      exact hc ▸ hR4 d hx

theorem string_ne_empty_of_data {s : String} (h : s.data ≠ []) : s ≠ "" :=
  fun h0 => h (by rw [h0])

/-- Both sides of a `" / "` split of a clean string strip to nonempty
clean strings. -/
theorem slash_pieces {t : String} {l r : List Char}
    (hclean : CleanChars t.data)
    (hd : t.data = l ++ ' ' :: '/' :: ' ' :: r) :
    (stripChars l ≠ [] ∧ CleanChars (stripChars l)) ∧
      (stripChars r ≠ [] ∧ CleanChars (stripChars r)) := by
  obtain ⟨h1, h2, h3, h4⟩ := hclean
  have hlpre : l <+: t.data := ⟨' ' :: '/' :: ' ' :: r, hd.symm⟩
  have hl1 : allWsSpace l := fun c hc hw => h1 c (hlpre.sublist.subset hc) hw
  have hl2 : noWsRun l := List.Chain'.prefix h2 hlpre
  have hlne : l ≠ [] := by
    intro h0
    rw [h0, List.nil_append] at hd
    have := h3 ' ' (by rw [hd]; rfl)
    simp [isWs] at this
  have hrsuf : r <:+ t.data := ⟨l ++ [' ', '/', ' '], by simp [hd]⟩
  have hr1 : allWsSpace r := fun c hc hw => h1 c (hrsuf.sublist.subset hc) hw
  have hr2 : noWsRun r := List.Chain'.suffix h2 hrsuf
  have hrne : r ≠ [] := by
    intro h0
    rw [h0] at hd
    have hlast : t.data.getLast? = some ' ' := by
      rw [hd, show l ++ [' ', '/', ' '] = (l ++ [' ', '/']) ++ [' '] by simp,
        List.getLast?_concat]
    exact absurd (h4 ' ' hlast) (by simp [isWs])
  constructor
  · cases l with
    | nil => exact absurd rfl hlne
    | cons d lrest =>
      have hhd : isWs d = false := h3 d (by rw [hd]; rfl)
      exact ⟨stripChars_ne_nil (by simp) hhd, cleanChars_stripChars hl1 hl2⟩
  · obtain ⟨d', hgl⟩ : ∃ d', r.getLast? = some d' := by
      cases hx : r.getLast? with
      | none => exact absurd (List.getLast?_eq_none_iff.1 hx) hrne
      | some d' => exact ⟨d', rfl⟩
    have hd'w : isWs d' = false := by
      apply h4 d'
      rw [getLast?_of_suffix hrsuf hrne]
      exact hgl
    have hd'mem : d' ∈ r := by
      obtain ⟨ys, rfl⟩ := List.getLast?_eq_some_iff.1 hgl
      simp
    exact ⟨stripChars_ne_nil hd'mem hd'w, cleanChars_stripChars hr1 hr2⟩

/-! ### Claim C10: `normalize_location` never returns an empty string -/

/-- C10: for every input, `normalize_location` returns either `null` or a
nonempty, whitespace-collapsed string (a fixed point of `norm_spaces`) —
on the main path via the emptiness check in `is_bad_location`, and on the
slash-`TBA` short-circuit path because the surviving side of a clean
string strips to a nonempty clean string. -/
theorem C10_nonempty_collapsed (x : Option String) :
    normalize_location x = none ∨
      ∃ res : String, normalize_location x = some res ∧ res ≠ "" ∧
        norm_spaces res = res := by
  cases x with
  | none => exact Or.inl rfl
  | some s =>
    by_cases hs : s = ""
    · refine Or.inl ?_
      rw [hs]
      rfl
    · cases hsplit : splitFirstSlash (tukeyNormed s).data with
      | none =>
        rw [normalize_location_eq_finish hs hsplit]
        unfold normalizeFinish
        by_cases h1 : upperStr (tukeyNormed s) = "TBA"
        · rw [if_pos h1]
          exact Or.inl rfl
        · rw [if_neg h1]
          by_cases h2 : is_bad_location (some (tukeyNormed s)) = true
          · rw [if_pos h2]
            exact Or.inl rfl
          · rw [if_neg h2]
            exact Or.inr ⟨tukeyNormed s, rfl,
              is_bad_location_false_ne_empty (Bool.not_eq_true _ ▸ h2),
              norm_spaces_tukeyNormed s⟩
      | some lr =>
        obtain ⟨l, r⟩ := lr
        rw [normalize_location_eq_slash hs hsplit]
        have hdecomp := splitFirstSlash_eq hsplit
        obtain ⟨⟨hlne, hlclean⟩, hrne, hrclean⟩ :=
          slash_pieces (cleanChars_tukeyNormed s) hdecomp
        have hLne : stripStr ⟨l⟩ ≠ "" := string_ne_empty_of_data hlne
        have hRne : stripStr ⟨r⟩ ≠ "" := string_ne_empty_of_data hrne
        have hLfix : norm_spaces (stripStr ⟨l⟩) = stripStr ⟨l⟩ :=
          norm_spaces_of_clean hlclean
        have hRfix : norm_spaces (stripStr ⟨r⟩) = stripStr ⟨r⟩ :=
          norm_spaces_of_clean hrclean
        by_cases hA : upperStr (stripStr ⟨l⟩) = "TBA" ∧ upperStr (stripStr ⟨r⟩) = "TBA"
        · rw [if_pos hA]
          exact Or.inl rfl
        · rw [if_neg hA]
          by_cases hB : upperStr (stripStr ⟨l⟩) = "TBA"
          · rw [if_pos hB]
            by_cases hC : upperStr (stripStr ⟨r⟩) = "TBA"
            · rw [if_pos hC]
              exact Or.inl rfl
            · rw [if_neg hC]
              exact Or.inr ⟨stripStr ⟨r⟩, rfl, hRne, hRfix⟩
          · rw [if_neg hB]
            by_cases hC : upperStr (stripStr ⟨r⟩) = "TBA"
            · rw [if_pos hC, if_neg hB]
              exact Or.inr ⟨stripStr ⟨l⟩, rfl, hLne, hLfix⟩
            · rw [if_neg hC]
              unfold normalizeFinish
              by_cases hD : upperStr (stripStr ⟨l⟩ ++ ", " ++ stripStr ⟨r⟩) = "TBA"
              · rw [if_pos hD]
                exact Or.inl rfl
              · rw [if_neg hD]
                by_cases hE : is_bad_location
                    (some (stripStr ⟨l⟩ ++ ", " ++ stripStr ⟨r⟩)) = true
                · rw [if_pos hE]
                  exact Or.inl rfl
                · rw [if_neg hE]
                  refine Or.inr ⟨stripStr ⟨l⟩ ++ ", " ++ stripStr ⟨r⟩, rfl, ?_, ?_⟩
                  · apply string_ne_empty_of_data
                    rw [String.data_append, String.data_append]
                    simp
                  · apply norm_spaces_of_clean
                    rw [String.data_append, String.data_append,
                      show (", " : String).data = [',', ' '] from rfl,
                      show (stripStr ⟨l⟩).data ++ [',', ' '] ++ (stripStr ⟨r⟩).data
                        = (stripStr ⟨l⟩).data ++ ',' :: ' ' :: (stripStr ⟨r⟩).data by
                          simp]
                    exact cleanChars_join hlclean hrclean hlne hrne

/-! ### Claim C8: location-only merging is frame-preserving -/

theorem cross_fill_length (ts : List Tournament) :
    (cross_fill_locations ts).length = ts.length := by
  simp [cross_fill_locations]

/-- C8: when `choose_better` merges records of tied precision the result
agrees with the first record on every field except `location`, and every
record produced by `cross_fill_locations` agrees with the corresponding
input record on every field except `location`. -/
theorem C8_location_only_frame (a b : Tournament)
    (hab : location_precision a.location = location_precision b.location)
    (ts : List Tournament) (i : ℕ) (hi : i < ts.length) :
    sameExceptLocation (choose_better a b) a ∧
      sameExceptLocation
        ((cross_fill_locations ts).get ⟨i, (cross_fill_length ts).symm ▸ hi⟩)
        (ts.get ⟨i, hi⟩) := by
  constructor
  · unfold choose_better
    rw [if_neg (by rw [hab]; exact lt_irrefl _),
      if_neg (by rw [hab]; exact lt_irrefl _)]
    split
    · exact ⟨rfl, rfl, rfl, rfl, rfl, rfl, rfl⟩
    · exact ⟨rfl, rfl, rfl, rfl, rfl, rfl, rfl⟩
  · rw [List.get_eq_getElem, List.get_eq_getElem]
    simp only [cross_fill_locations]
    rw [List.getElem_map, List.getElem_enum]
    split
    · exact ⟨rfl, rfl, rfl, rfl, rfl, rfl, rfl⟩
    · split
      · split
        · exact ⟨rfl, rfl, rfl, rfl, rfl, rfl, rfl⟩
        · exact ⟨rfl, rfl, rfl, rfl, rfl, rfl, rfl⟩
      · exact ⟨rfl, rfl, rfl, rfl, rfl, rfl, rfl⟩

/-- C8 (witness): the frame property at concrete records. -/
theorem C8_witness :
    sameExceptLocation
      (choose_better
        { title := "A", organizer := "O", start := 0, endd := 1,
          location := none, tour := none, source := "s", source_url := "u" }
        { title := "B", organizer := "P", start := 2, endd := 3,
          location := none, tour := none, source := "t", source_url := "v" })
      { title := "A", organizer := "O", start := 0, endd := 1,
        location := none, tour := none, source := "s", source_url := "u" } ∧
      sameExceptLocation
        ((cross_fill_locations
          [{ title := "C", organizer := "Q", start := 4, endd := 5,
             location := none, tour := none, source := "w", source_url := "y" }]).get
          ⟨0, by decide⟩)
        ([{ title := "C", organizer := "Q", start := 4, endd := 5,
            location := none, tour := none, source := "w", source_url := "y" }].get
          ⟨0, by decide⟩) :=
  C8_location_only_frame
    { title := "A", organizer := "O", start := 0, endd := 1,
      location := none, tour := none, source := "s", source_url := "u" }
    { title := "B", organizer := "P", start := 2, endd := 3,
      location := none, tour := none, source := "t", source_url := "v" }
    rfl
    [{ title := "C", organizer := "Q", start := 4, endd := 5,
       location := none, tour := none, source := "w", source_url := "y" }]
    0 (by decide)

/-! ### `choose_better` and the `dedup` fold -/

theorem location_precision_le_two (o : Option String) :
    location_precision o ≤ 2 := by
  cases o with
  | none => exact Nat.zero_le 2
  | some s =>
    show (if s = "" then 0
      else if (norm_spaces s).data.contains ',' = true then 2 else 1) ≤ 2
    by_cases h : s = ""
    · rw [if_pos h]
      exact Nat.zero_le 2
    · rw [if_neg h]
      split
      · exact le_refl 2
      · exact Nat.le_succ 1

theorem choose_better_prec_left (a b : Tournament) :
    location_precision a.location ≤
      location_precision (choose_better a b).location := by
  simp only [choose_better]
  split_ifs with h1 h2 h3
  · exact le_of_lt h1
  · exact le_refl _
  · have hab : location_precision a.location = location_precision b.location :=
      le_antisymm (not_lt.1 h2) (not_lt.1 h1)
    exact le_of_eq hab
  · exact le_refl _

theorem choose_better_prec_right (a b : Tournament) :
    location_precision b.location ≤
      location_precision (choose_better a b).location := by
  simp only [choose_better]
  split_ifs with h1 h2 h3
  · exact le_refl _
  · exact le_of_lt h2
  · exact le_refl _
  · exact le_antisymm (not_lt.1 h2) (not_lt.1 h1) ▸ le_refl _

theorem choose_better_key {a b : Tournament} {K : String}
    (ha : dedupKey a = K) (hb : dedupKey b = K) :
    dedupKey (choose_better a b) = K := by
  simp only [choose_better]
  split_ifs with h1 h2 h3
  · exact hb
  · exact ha
  · exact ha
  · exact ha

theorem dedupInsert_mem_preserve {seen : List (String × Tournament)}
    {k₀ : String} {u₀ : Tournament} (k : String) (t : Tournament)
    (h : (k₀, u₀) ∈ seen) :
    ∃ u₁, (k₀, u₁) ∈ dedupInsert seen k t ∧
      location_precision u₀.location ≤ location_precision u₁.location ∧
      (u₁ = u₀ ∨ u₁ = choose_better u₀ t) := by
  induction seen with
  | nil => simp at h
  | cons p rest ih =>
    obtain ⟨k', u'⟩ := p
    rw [dedupInsert]
    by_cases hk : k' = k
    · rw [if_pos hk]
      rcases List.mem_cons.1 h with heq | hmem
      · injection heq with e1 e2
        refine ⟨choose_better u₀ t, ?_, choose_better_prec_left u₀ t, Or.inr rfl⟩
        rw [← e1, ← e2]
        exact List.mem_cons_self _ _
      · exact ⟨u₀, List.mem_cons_of_mem _ hmem, le_refl _, Or.inl rfl⟩
    · rw [if_neg hk]
      rcases List.mem_cons.1 h with heq | hmem
      · injection heq with e1 e2
        refine ⟨u₀, ?_, le_refl _, Or.inl rfl⟩
        rw [← e1, ← e2]
        exact List.mem_cons_self _ _
      · obtain ⟨u₁, hmem₁, hle, hform⟩ := ih hmem
        exact ⟨u₁, List.mem_cons_of_mem _ hmem₁, hle, hform⟩

theorem dedupInsert_mem_self (seen : List (String × Tournament))
    (k : String) (t : Tournament) :
    ∃ u₁, (k, u₁) ∈ dedupInsert seen k t ∧
      location_precision t.location ≤ location_precision u₁.location ∧
      (u₁ = t ∨ ∃ u₀, u₁ = choose_better u₀ t) := by
  induction seen with
  | nil =>
    exact ⟨t, by simp [dedupInsert], le_refl _, Or.inl rfl⟩
  | cons p rest ih =>
    obtain ⟨k', u'⟩ := p
    rw [dedupInsert]
    by_cases hk : k' = k
    · rw [if_pos hk]
      refine ⟨choose_better u' t, ?_, choose_better_prec_right u' t,
        Or.inr ⟨u', rfl⟩⟩
      rw [hk]
      exact List.mem_cons_self _ _
    · rw [if_neg hk]
      obtain ⟨u₁, hmem₁, hle, hform⟩ := ih
      exact ⟨u₁, List.mem_cons_of_mem _ hmem₁, hle, hform⟩

theorem dedupInsert_keys (seen : List (String × Tournament)) (k : String)
    (t : Tournament) :
    (dedupInsert seen k t).map Prod.fst =
      if k ∈ seen.map Prod.fst then seen.map Prod.fst
      else seen.map Prod.fst ++ [k] := by
  induction seen with
  | nil => simp [dedupInsert]
  | cons p rest ih =>
    obtain ⟨k', u'⟩ := p
    rw [dedupInsert]
    by_cases hk : k' = k
    · rw [if_pos hk]
      simp [hk]
    · rw [if_neg hk]
      simp only [List.map_cons, List.mem_cons]
      rw [ih]
      by_cases hmem : k ∈ rest.map Prod.fst
      · rw [if_pos hmem, if_pos (Or.inr hmem)]
      · rw [if_neg hmem, if_neg ?_]
        · simp
        · rintro (h | h)
          · exact hk h.symm
          · exact hmem h

theorem dedupInsert_keyinv {seen : List (String × Tournament)}
    {k : String} {t : Tournament}
    (hseen : ∀ p ∈ seen, dedupKey p.2 = p.1) (ht : dedupKey t = k) :
    ∀ p ∈ dedupInsert seen k t, dedupKey p.2 = p.1 := by
  induction seen with
  | nil =>
    intro p hp
    rw [dedupInsert] at hp
    rcases List.mem_singleton.1 hp with rfl
    exact ht
  | cons q rest ih =>
    obtain ⟨k', u'⟩ := q
    intro p hp
    rw [dedupInsert] at hp
    by_cases hk : k' = k
    · rw [if_pos hk] at hp
      rcases List.mem_cons.1 hp with rfl | hmem
      · exact choose_better_key (hseen (k', u') (List.mem_cons_self _ _)) (hk ▸ ht)
      · exact hseen p (List.mem_cons_of_mem _ hmem)
    · rw [if_neg hk] at hp
      rcases List.mem_cons.1 hp with rfl | hmem
      · exact hseen (k', u') (List.mem_cons_self _ _)
      · exact ih (fun q hq => hseen q (List.mem_cons_of_mem _ hq)) p hmem

theorem dedupInsert_fresh {seen : List (String × Tournament)} {k : String}
    (t : Tournament) (h : k ∉ seen.map Prod.fst) :
    dedupInsert seen k t = seen ++ [(k, t)] := by
  induction seen with
  | nil => rfl
  | cons p rest ih =>
    obtain ⟨k', u'⟩ := p
    rw [dedupInsert, if_neg ?_]
    · rw [ih (fun hmem => h (by simp [hmem]))]
      rfl
    · intro h0
      exact h (by simp [h0])

theorem dedupFold_mem_preserve (l : List Tournament) :
    ∀ (seen : List (String × Tournament)) (k₀ : String) (u₀ : Tournament),
      (k₀, u₀) ∈ seen →
      ∃ u₁, (k₀, u₁) ∈
          l.foldl (fun seen t => dedupInsert seen (dedupKey t) t) seen ∧
        location_precision u₀.location ≤ location_precision u₁.location := by
  induction l with
  | nil => exact fun seen k₀ u₀ h => ⟨u₀, h, le_refl _⟩
  | cons x xs ih =>
    intro seen k₀ u₀ h
    obtain ⟨u', hmem', hle', _⟩ := dedupInsert_mem_preserve (dedupKey x) x h
    obtain ⟨u₁, hmem₁, hle₁⟩ := ih _ _ _ hmem'
    exact ⟨u₁, hmem₁, le_trans hle' hle₁⟩

theorem dedupFold_mem_input {t : Tournament} (l : List Tournament) :
    ∀ (seen : List (String × Tournament)), t ∈ l →
      ∃ u, (dedupKey t, u) ∈
          l.foldl (fun seen t => dedupInsert seen (dedupKey t) t) seen ∧
        location_precision t.location ≤ location_precision u.location := by
  induction l with
  | nil => intro seen h; simp at h
  | cons x xs ih =>
    intro seen h
    rcases List.mem_cons.1 h with rfl | hmem
    · obtain ⟨u', hmem', hle', _⟩ := dedupInsert_mem_self seen (dedupKey t) t
      obtain ⟨u₁, hmem₁, hle₁⟩ := dedupFold_mem_preserve xs _ _ _ hmem'
      exact ⟨u₁, hmem₁, le_trans hle' hle₁⟩
    · exact ih _ hmem

theorem dedupFold_keyinv (l : List Tournament) :
    ∀ (seen : List (String × Tournament)),
      (∀ p ∈ seen, dedupKey p.2 = p.1) →
      ∀ p ∈ l.foldl (fun seen t => dedupInsert seen (dedupKey t) t) seen,
        dedupKey p.2 = p.1 := by
  induction l with
  | nil => exact fun seen h => h
  | cons x xs ih =>
    intro seen h
    exact ih _ (dedupInsert_keyinv h rfl)

theorem dedupFold_keys_mem (l : List Tournament) :
    ∀ (seen : List (String × Tournament)) (k : String),
      (k ∈ (l.foldl (fun seen t => dedupInsert seen (dedupKey t) t) seen).map
          Prod.fst ↔
        k ∈ seen.map Prod.fst ∨ k ∈ l.map dedupKey) := by
  induction l with
  | nil => simp
  | cons x xs ih =>
    intro seen k
    rw [List.foldl_cons, ih, dedupInsert_keys]
    by_cases hmem : dedupKey x ∈ seen.map Prod.fst
    · rw [if_pos hmem]
      simp only [List.map_cons, List.mem_cons]
      constructor
      · rintro (h | h)
        · exact Or.inl h
        · exact Or.inr (Or.inr h)
      · rintro (h | rfl | h)
        · exact Or.inl h
        · exact Or.inl hmem
        · exact Or.inr h
    · rw [if_neg hmem]
      simp only [List.map_cons, List.mem_cons, List.mem_append,
        List.mem_singleton]
      tauto

theorem dedupFold_keys_nodup (l : List Tournament) :
    ∀ (seen : List (String × Tournament)), (seen.map Prod.fst).Nodup →
      ((l.foldl (fun seen t => dedupInsert seen (dedupKey t) t) seen).map
        Prod.fst).Nodup := by
  induction l with
  | nil => exact fun seen h => h
  | cons x xs ih =>
    intro seen h
    rw [List.foldl_cons]
    apply ih
    rw [dedupInsert_keys]
    by_cases hmem : dedupKey x ∈ seen.map Prod.fst
    · rw [if_pos hmem]
      exact h
    · rw [if_neg hmem]
      simp [List.nodup_append, h, hmem]

theorem dedupFold_fresh (l : List Tournament) :
    ∀ (seen : List (String × Tournament)),
      (∀ t ∈ l, dedupKey t ∉ seen.map Prod.fst) →
      (l.map dedupKey).Nodup →
      l.foldl (fun seen t => dedupInsert seen (dedupKey t) t) seen =
        seen ++ l.map (fun t => (dedupKey t, t)) := by
  induction l with
  | nil => simp
  | cons x xs ih =>
    intro seen hdisj hnodup
    rw [List.foldl_cons,
      dedupInsert_fresh x (hdisj x (List.mem_cons_self _ _)), ih]
    · simp
    · intro t ht
      simp only [List.map_append, List.map_cons, List.map_nil,
        List.mem_append, List.mem_singleton]
      rintro (h | h)
      · exact hdisj t (List.mem_cons_of_mem _ ht) h
      · rw [List.map_cons, List.nodup_cons] at hnodup
        exact hnodup.1 (h ▸ List.mem_map_of_mem dedupKey ht)
    · rw [List.map_cons, List.nodup_cons] at hnodup
      exact hnodup.2

/-! ### Claim C2: one output record per distinct identity key -/

theorem dedup_keys_nodup (ts : List Tournament) :
    ((dedup ts).map dedupKey).Nodup := by
  unfold dedup
  have hinv := dedupFold_keyinv ts [] (by simp)
  rw [List.map_map,
    List.map_congr_left
      (l := ts.foldl (fun seen t => dedupInsert seen (dedupKey t) t) [])
      (f := dedupKey ∘ Prod.snd) (g := Prod.fst) (fun p hp => hinv p hp)]
  exact dedupFold_keys_nodup ts [] (by simp)

theorem dedup_keys_mem (ts : List Tournament) (k : String) :
    k ∈ (dedup ts).map dedupKey ↔ k ∈ ts.map dedupKey := by
  unfold dedup
  have hinv := dedupFold_keyinv ts [] (by simp)
  rw [List.map_map,
    List.map_congr_left
      (l := ts.foldl (fun seen t => dedupInsert seen (dedupKey t) t) [])
      (f := dedupKey ∘ Prod.snd) (g := Prod.fst) (fun p hp => hinv p hp)]
  rw [dedupFold_keys_mem ts [] k]
  simp

/-- C2: the dedup output has exactly one record per distinct identity key
`(slug(title), start.isoformat())`: its key list is duplicate-free, and a
key occurs in the output iff some input record carries it. -/
theorem C2_dedup_one_per_key (ts : List Tournament) :
    ((dedup ts).map dedupKey).Nodup ∧
      ∀ k, k ∈ (dedup ts).map dedupKey ↔ k ∈ ts.map dedupKey :=
  ⟨dedup_keys_nodup ts, fun k => dedup_keys_mem ts k⟩

/-! ### Claim C9: `dedup` is idempotent -/

/-- C9: `dedup (dedup ts) = dedup ts` — after one pass the identity keys
are pairwise distinct, so a second pass inserts each record fresh and
returns the list unchanged, in order. -/
theorem C9_dedup_idempotent (ts : List Tournament) :
    dedup (dedup ts) = dedup ts := by
  have hnodup : ((dedup ts).map dedupKey).Nodup := dedup_keys_nodup ts
  show ((dedup ts).foldl
      (fun seen t => dedupInsert seen (dedupKey t) t) []).map Prod.snd
    = dedup ts
  rw [dedupFold_fresh (dedup ts) [] (by simp) hnodup]
  rw [List.nil_append, List.map_map]
  exact List.map_id (dedup ts)

/-! ### Claim C1: precision is non-decreasing through dedup and cross-fill -/

theorem dedup_mem_input {t : Tournament} {ts : List Tournament} (ht : t ∈ ts) :
    ∃ u ∈ dedup ts, dedupKey u = dedupKey t ∧
      location_precision t.location ≤ location_precision u.location := by
  obtain ⟨u, hmem, hle⟩ := dedupFold_mem_input ts [] ht
  have hkey := dedupFold_keyinv ts [] (by simp) (dedupKey t, u) hmem
  exact ⟨u, List.mem_map_of_mem Prod.snd hmem, hkey, hle⟩

theorem bestFill_precision (t : Tournament) (i : ℕ)
    (cands : List (ℕ × Tournament)) :
    (bestFill t i cands).1 = none ∨
      location_precision (bestFill t i cands).1 = 2 := by
  unfold bestFill
  suffices h : ∀ init : Option String × ℚ,
      init.1 = none ∨ location_precision init.1 = 2 →
      (cands.foldl
        (fun best jc =>
          if jc.1 = i then best
          else if location_precision jc.2.location ≠ 2 then best
          else if 1 < |jc.2.endd - t.endd| then best
          else
            let sim := jaccard t.title jc.2.title
            if sim < 28 / 100 then best
            else if best.2 < sim then (jc.2.location, sim) else best)
        init).1 = none ∨
      location_precision
        ((cands.foldl
          (fun best jc =>
            if jc.1 = i then best
            else if location_precision jc.2.location ≠ 2 then best
            else if 1 < |jc.2.endd - t.endd| then best
            else
              let sim := jaccard t.title jc.2.title
              if sim < 28 / 100 then best
              else if best.2 < sim then (jc.2.location, sim) else best)
          init).1) = 2 by
    exact h (none, 0) (Or.inl rfl)
  induction cands with
  | nil => exact fun init h => h
  | cons jc rest ih =>
    intro init hinit
    rw [List.foldl_cons]
    apply ih
    dsimp only
    split_ifs with h1 h2 h3 h4 h5
    · exact hinit
    · exact hinit
    · exact hinit
    · exact hinit
    · exact Or.inr (by simpa using h2)
    · exact hinit

theorem cross_fill_get (ts : List Tournament) (i : ℕ) (hi : i < ts.length) :
    dedupKey
        ((cross_fill_locations ts).get ⟨i, (cross_fill_length ts).symm ▸ hi⟩)
        = dedupKey (ts.get ⟨i, hi⟩) ∧
      location_precision (ts.get ⟨i, hi⟩).location ≤
        location_precision
          ((cross_fill_locations ts).get
            ⟨i, (cross_fill_length ts).symm ▸ hi⟩).location := by
  rw [List.get_eq_getElem, List.get_eq_getElem]
  simp only [cross_fill_locations]
  rw [List.getElem_map, List.getElem_enum]
  split
  · exact ⟨rfl, le_refl _⟩
  · split
    · next bl heq =>
      split
      · refine ⟨rfl, ?_⟩
        rcases bestFill_precision ts[i] i
            (ts.enum.filter (fun jc => jc.2.start = ts[i].start)) with h | h
        · rw [heq] at h
          cases h
        · rw [heq] at h
          exact le_of_le_of_eq (location_precision_le_two _) h.symm
      · exact ⟨rfl, le_refl _⟩
    · exact ⟨rfl, le_refl _⟩

/-- C1: for every input record, the cross-filled dedup output contains a
record with the same identity key whose location precision is at least
the input record's — `choose_better` never lowers precision, and
cross-fill only installs precision-2 locations. -/
theorem C1_precision_monotone (ts : List Tournament) (t : Tournament)
    (ht : t ∈ ts) :
    ∃ u ∈ cross_fill_locations (dedup ts),
      dedupKey u = dedupKey t ∧
        location_precision t.location ≤ location_precision u.location := by
  obtain ⟨u, humem, hukey, huprec⟩ := dedup_mem_input ht
  obtain ⟨i, hi, hu⟩ := List.mem_iff_getElem.1 humem
  have hcf := cross_fill_get (dedup ts) i hi
  refine ⟨(cross_fill_locations (dedup ts)).get
      ⟨i, (cross_fill_length (dedup ts)).symm ▸ hi⟩,
    List.get_mem _ _ _, ?_, ?_⟩
  · rw [hcf.1, List.get_eq_getElem, hu]
    exact hukey
  · refine le_trans huprec ?_
    have h2 := hcf.2
    rw [List.get_eq_getElem, hu] at h2
    exact h2

/-- C1 (witness): precision monotonicity at a concrete record. -/
theorem C1_witness :
    ∃ u ∈ cross_fill_locations (dedup
        [{ title := "US Open", organizer := "O", start := 0, endd := 1,
           location := some "Paris, France", tour := none, source := "s",
           source_url := "u" }]),
      dedupKey u = dedupKey
          { title := "US Open", organizer := "O", start := 0, endd := 1,
            location := some "Paris, France", tour := none, source := "s",
            source_url := "u" } ∧
        location_precision
            (some "Paris, France" : Option String) ≤
          location_precision u.location :=
  C1_precision_monotone _ _ (List.mem_singleton.2 rfl)

/-! ### Claim C6: the cross-fill similarity threshold -/

theorem location_precision_two_ne_empty {o : Option String}
    (h : location_precision o = 2) : ∃ bl, o = some bl ∧ bl ≠ "" := by
  cases o with
  | none => simp [location_precision] at h
  | some s =>
    refine ⟨s, rfl, ?_⟩
    intro h0
    rw [h0] at h
    simp [location_precision] at h

set_option maxHeartbeats 1600000 in
/-- C6: in `cross_fill_locations`, a qualifying candidate (same start,
precision-2 location, end within one day) with title Jaccard similarity
exactly 0.28 is accepted and its location installed, while a sole
candidate at similarity 0.27 is rejected and the target's location is
unchanged. -/
theorem C6_crossfill_threshold (t c t' c' : Tournament)
    (h1 : location_precision t.location ≠ 2)
    (h2 : c.start = t.start)
    (h3 : location_precision c.location = 2)
    (h4 : |c.endd - t.endd| ≤ 1)
    (h5 : jaccard t.title c.title = 28 / 100)
    (h6 : t.location ≠ c.location)
    (h1' : location_precision t'.location ≠ 2)
    (h2' : c'.start = t'.start)
    (h3' : location_precision c'.location = 2)
    (h4' : |c'.endd - t'.endd| ≤ 1)
    (h5' : jaccard t'.title c'.title = 27 / 100) :
    cross_fill_locations [t, c] = [{ t with location := c.location }, c] ∧
      cross_fill_locations [t', c'] = [t', c'] := by
  obtain ⟨bl, hbl, hblne⟩ := location_precision_two_ne_empty h3
  constructor
  · unfold cross_fill_locations
    rw [show ([t, c] : List Tournament).enum = [(0, t), (1, c)] from rfl]
    rw [List.map_cons, List.map_cons, List.map_nil]
    congr 1
    · dsimp only
      rw [if_neg h1]
      have hfil : ([(0, t), (1, c)] : List (ℕ × Tournament)).filter
          (fun jc => jc.2.start = t.start) = [(0, t), (1, c)] := by
        simp [h2]
      rw [hfil]
      have hbf : bestFill t 0 [(0, t), (1, c)] = (c.location, 28 / 100) := by
        unfold bestFill
        rw [List.foldl_cons, List.foldl_cons, List.foldl_nil]
        dsimp only
        rw [if_pos rfl, if_neg (by decide : ¬(1 = 0)),
          if_neg (fun hc => hc h3), if_neg (not_lt.2 h4)]
        dsimp only
        rw [h5, if_neg (lt_irrefl _), if_pos (by norm_num : (0 : ℚ) < 28 / 100)]
      rw [hbf]
      dsimp only
      rw [hbl]
      dsimp only
      rw [if_pos ⟨hblne, hbl ▸ h6⟩]
    · congr 1
      dsimp only
      rw [if_pos h3]
  · unfold cross_fill_locations
    rw [show ([t', c'] : List Tournament).enum = [(0, t'), (1, c')] from rfl]
    rw [List.map_cons, List.map_cons, List.map_nil]
    congr 1
    · dsimp only
      rw [if_neg h1']
      have hfil : ([(0, t'), (1, c')] : List (ℕ × Tournament)).filter
          (fun jc => jc.2.start = t'.start) = [(0, t'), (1, c')] := by
        simp [h2']
      rw [hfil]
      have hbf : bestFill t' 0 [(0, t'), (1, c')] = (none, 0) := by
        unfold bestFill
        rw [List.foldl_cons, List.foldl_cons, List.foldl_nil]
        dsimp only
        rw [if_pos rfl, if_neg (by decide : ¬(1 = 0)),
          if_neg (fun hc => hc h3'), if_neg (not_lt.2 h4')]
        dsimp only
        rw [h5', if_pos (by norm_num : (27 : ℚ) / 100 < 28 / 100)]
      rw [hbf]
    · congr 1
      dsimp only
      rw [if_pos h3']

set_option maxRecDepth 200000 in
theorem jaccard_sim_28 :
    jaccard "aaa bbb ccc ddd eee fff ggg hhh iii jjj kkk lll mmm nnn ooo ppp"
      "aaa bbb ccc ddd eee fff ggg qqq rrr sss ttt uuu vvv www xxx yyy" = 28 / 100 := by
  have hne : ¬(title_tokens "aaa bbb ccc ddd eee fff ggg hhh iii jjj kkk lll mmm nnn ooo ppp" = [] ∨
      title_tokens "aaa bbb ccc ddd eee fff ggg qqq rrr sss ttt uuu vvv www xxx yyy" = []) := by decide
  have hI : ((title_tokens "aaa bbb ccc ddd eee fff ggg hhh iii jjj kkk lll mmm nnn ooo ppp").inter
      (title_tokens "aaa bbb ccc ddd eee fff ggg qqq rrr sss ttt uuu vvv www xxx yyy")).length = 7 := by decide
  have hU : ((title_tokens "aaa bbb ccc ddd eee fff ggg hhh iii jjj kkk lll mmm nnn ooo ppp").union
      (title_tokens "aaa bbb ccc ddd eee fff ggg qqq rrr sss ttt uuu vvv www xxx yyy")).length = 25 := by decide
  simp only [jaccard]
  rw [if_neg hne, hI, hU]
  norm_num

set_option maxRecDepth 200000 in
theorem jaccard_sim_27 :
    jaccard "x00 x01 x02 x03 x04 x05 x06 x07 x08 x09 x10 x11 x12 x13 x14 x15 x16 x17 x18 x19 x20 x21 x22 x23 x24 x25 x26 y00 y01 y02 y03 y04 y05 y06 y07 y08 y09 y10 y11 y12 y13 y14 y15 y16 y17 y18 y19 y20 y21 y22 y23 y24 y25 y26 y27 y28 y29 y30 y31 y32 y33 y34 y35 y36"
      "x00 x01 x02 x03 x04 x05 x06 x07 x08 x09 x10 x11 x12 x13 x14 x15 x16 x17 x18 x19 x20 x21 x22 x23 x24 x25 x26 z00 z01 z02 z03 z04 z05 z06 z07 z08 z09 z10 z11 z12 z13 z14 z15 z16 z17 z18 z19 z20 z21 z22 z23 z24 z25 z26 z27 z28 z29 z30 z31 z32 z33 z34 z35" = 27 / 100 := by
  have hne : ¬(title_tokens "x00 x01 x02 x03 x04 x05 x06 x07 x08 x09 x10 x11 x12 x13 x14 x15 x16 x17 x18 x19 x20 x21 x22 x23 x24 x25 x26 y00 y01 y02 y03 y04 y05 y06 y07 y08 y09 y10 y11 y12 y13 y14 y15 y16 y17 y18 y19 y20 y21 y22 y23 y24 y25 y26 y27 y28 y29 y30 y31 y32 y33 y34 y35 y36" = [] ∨
      title_tokens "x00 x01 x02 x03 x04 x05 x06 x07 x08 x09 x10 x11 x12 x13 x14 x15 x16 x17 x18 x19 x20 x21 x22 x23 x24 x25 x26 z00 z01 z02 z03 z04 z05 z06 z07 z08 z09 z10 z11 z12 z13 z14 z15 z16 z17 z18 z19 z20 z21 z22 z23 z24 z25 z26 z27 z28 z29 z30 z31 z32 z33 z34 z35" = []) := by decide
  have hI : ((title_tokens "x00 x01 x02 x03 x04 x05 x06 x07 x08 x09 x10 x11 x12 x13 x14 x15 x16 x17 x18 x19 x20 x21 x22 x23 x24 x25 x26 y00 y01 y02 y03 y04 y05 y06 y07 y08 y09 y10 y11 y12 y13 y14 y15 y16 y17 y18 y19 y20 y21 y22 y23 y24 y25 y26 y27 y28 y29 y30 y31 y32 y33 y34 y35 y36").inter
      (title_tokens "x00 x01 x02 x03 x04 x05 x06 x07 x08 x09 x10 x11 x12 x13 x14 x15 x16 x17 x18 x19 x20 x21 x22 x23 x24 x25 x26 z00 z01 z02 z03 z04 z05 z06 z07 z08 z09 z10 z11 z12 z13 z14 z15 z16 z17 z18 z19 z20 z21 z22 z23 z24 z25 z26 z27 z28 z29 z30 z31 z32 z33 z34 z35")).length = 27 := by decide
  have hU : ((title_tokens "x00 x01 x02 x03 x04 x05 x06 x07 x08 x09 x10 x11 x12 x13 x14 x15 x16 x17 x18 x19 x20 x21 x22 x23 x24 x25 x26 y00 y01 y02 y03 y04 y05 y06 y07 y08 y09 y10 y11 y12 y13 y14 y15 y16 y17 y18 y19 y20 y21 y22 y23 y24 y25 y26 y27 y28 y29 y30 y31 y32 y33 y34 y35 y36").union
      (title_tokens "x00 x01 x02 x03 x04 x05 x06 x07 x08 x09 x10 x11 x12 x13 x14 x15 x16 x17 x18 x19 x20 x21 x22 x23 x24 x25 x26 z00 z01 z02 z03 z04 z05 z06 z07 z08 z09 z10 z11 z12 z13 z14 z15 z16 z17 z18 z19 z20 z21 z22 z23 z24 z25 z26 z27 z28 z29 z30 z31 z32 z33 z34 z35")).length = 100 := by decide
  simp only [jaccard]
  rw [if_neg hne, hI, hU]
  norm_num

/-- C6 (witness): the threshold behaviour at concrete records whose title
token sets have Jaccard similarity exactly 7/25 = 0.28 and 27/100 = 0.27
respectively. -/
theorem C6_witness :
    cross_fill_locations
        [{ title := "aaa bbb ccc ddd eee fff ggg hhh iii jjj kkk lll mmm nnn ooo ppp",
           organizer := "O", start := 0, endd := 5, location := none,
           tour := none, source := "s", source_url := "u" },
         { title := "aaa bbb ccc ddd eee fff ggg qqq rrr sss ttt uuu vvv www xxx yyy",
           organizer := "P", start := 0, endd := 6,
           location := some "Las Vegas, USA", tour := none, source := "t",
           source_url := "v" }] =
      [{ title := "aaa bbb ccc ddd eee fff ggg hhh iii jjj kkk lll mmm nnn ooo ppp",
         organizer := "O", start := 0, endd := 5,
         location := some "Las Vegas, USA", tour := none, source := "s",
         source_url := "u" },
       { title := "aaa bbb ccc ddd eee fff ggg qqq rrr sss ttt uuu vvv www xxx yyy",
         organizer := "P", start := 0, endd := 6,
         location := some "Las Vegas, USA", tour := none, source := "t",
         source_url := "v" }] ∧
      cross_fill_locations
          [{ title := "x00 x01 x02 x03 x04 x05 x06 x07 x08 x09 x10 x11 x12 x13 x14 x15 x16 x17 x18 x19 x20 x21 x22 x23 x24 x25 x26 y00 y01 y02 y03 y04 y05 y06 y07 y08 y09 y10 y11 y12 y13 y14 y15 y16 y17 y18 y19 y20 y21 y22 y23 y24 y25 y26 y27 y28 y29 y30 y31 y32 y33 y34 y35 y36",
             organizer := "O", start := 0, endd := 5, location := none,
             tour := none, source := "s", source_url := "u" },
           { title := "x00 x01 x02 x03 x04 x05 x06 x07 x08 x09 x10 x11 x12 x13 x14 x15 x16 x17 x18 x19 x20 x21 x22 x23 x24 x25 x26 z00 z01 z02 z03 z04 z05 z06 z07 z08 z09 z10 z11 z12 z13 z14 z15 z16 z17 z18 z19 z20 z21 z22 z23 z24 z25 z26 z27 z28 z29 z30 z31 z32 z33 z34 z35",
             organizer := "P", start := 0, endd := 6,
             location := some "Las Vegas, USA", tour := none, source := "t",
             source_url := "v" }] =
        [{ title := "x00 x01 x02 x03 x04 x05 x06 x07 x08 x09 x10 x11 x12 x13 x14 x15 x16 x17 x18 x19 x20 x21 x22 x23 x24 x25 x26 y00 y01 y02 y03 y04 y05 y06 y07 y08 y09 y10 y11 y12 y13 y14 y15 y16 y17 y18 y19 y20 y21 y22 y23 y24 y25 y26 y27 y28 y29 y30 y31 y32 y33 y34 y35 y36",
           organizer := "O", start := 0, endd := 5, location := none,
           tour := none, source := "s", source_url := "u" },
         { title := "x00 x01 x02 x03 x04 x05 x06 x07 x08 x09 x10 x11 x12 x13 x14 x15 x16 x17 x18 x19 x20 x21 x22 x23 x24 x25 x26 z00 z01 z02 z03 z04 z05 z06 z07 z08 z09 z10 z11 z12 z13 z14 z15 z16 z17 z18 z19 z20 z21 z22 z23 z24 z25 z26 z27 z28 z29 z30 z31 z32 z33 z34 z35",
           organizer := "P", start := 0, endd := 6,
           location := some "Las Vegas, USA", tour := none, source := "t",
           source_url := "v" }] :=
  C6_crossfill_threshold
    { title := "aaa bbb ccc ddd eee fff ggg hhh iii jjj kkk lll mmm nnn ooo ppp",
      organizer := "O", start := 0, endd := 5, location := none,
      tour := none, source := "s", source_url := "u" }
    { title := "aaa bbb ccc ddd eee fff ggg qqq rrr sss ttt uuu vvv www xxx yyy",
      organizer := "P", start := 0, endd := 6,
      location := some "Las Vegas, USA", tour := none, source := "t",
      source_url := "v" }
    { title := "x00 x01 x02 x03 x04 x05 x06 x07 x08 x09 x10 x11 x12 x13 x14 x15 x16 x17 x18 x19 x20 x21 x22 x23 x24 x25 x26 y00 y01 y02 y03 y04 y05 y06 y07 y08 y09 y10 y11 y12 y13 y14 y15 y16 y17 y18 y19 y20 y21 y22 y23 y24 y25 y26 y27 y28 y29 y30 y31 y32 y33 y34 y35 y36",
      organizer := "O", start := 0, endd := 5, location := none,
      tour := none, source := "s", source_url := "u" }
    { title := "x00 x01 x02 x03 x04 x05 x06 x07 x08 x09 x10 x11 x12 x13 x14 x15 x16 x17 x18 x19 x20 x21 x22 x23 x24 x25 x26 z00 z01 z02 z03 z04 z05 z06 z07 z08 z09 z10 z11 z12 z13 z14 z15 z16 z17 z18 z19 z20 z21 z22 z23 z24 z25 z26 z27 z28 z29 z30 z31 z32 z33 z34 z35",
      organizer := "P", start := 0, endd := 6,
      location := some "Las Vegas, USA", tour := none, source := "t",
      source_url := "v" }
    (by decide) rfl (by decide) (by decide) jaccard_sim_28 (by decide)
    (by decide) rfl (by decide) (by decide) jaccard_sim_27

/-! ### Claim C3: the conflict detector -/

theorem rowKeyLe_trans (x y z : ℕ × Row) (hxy : rowKeyLe x y = true)
    (hyz : rowKeyLe y z = true) : rowKeyLe x z = true := by
  rw [rowKeyLe, decide_eq_true_iff] at *
  exact le_trans hxy hyz

theorem rowKeyLe_total (x y : ℕ × Row) :
    (rowKeyLe x y || rowKeyLe y x) = true := by
  rw [Bool.or_eq_true, rowKeyLe, rowKeyLe, decide_eq_true_iff,
    decide_eq_true_iff]
  exact le_total _ _

theorem rowKeyLe_start {x y : ℕ × Row} (h : rowKeyLe x y = true) :
    x.2.start ≤ y.2.start := by
  rw [rowKeyLe, decide_eq_true_iff] at h
  rcases (Prod.Lex.le_iff _ _).1 h with h1 | h1
  · exact le_of_lt h1
  · exact le_of_eq h1.1

theorem innerScan_subset (a : ℕ × Row) :
    ∀ (l : List (ℕ × Row)) (acc : Finset ℕ), acc ⊆ innerScan a l acc := by
  intro l
  induction l with
  | nil => exact fun acc => Finset.Subset.refl acc
  | cons b bs ih =>
    intro acc
    rw [innerScan]
    split
    · exact Finset.Subset.refl acc
    · refine subset_trans ?_ (ih _)
      split
      · exact subset_trans (Finset.subset_insert _ _) (Finset.subset_insert _ _)
      · exact Finset.Subset.refl acc

theorem innerScan_sound (a : ℕ × Row) :
    ∀ (l : List (ℕ × Row)) (acc : Finset ℕ) (x : ℕ),
      x ∈ innerScan a l acc →
      x ∈ acc ∨ ∃ b ∈ l, overlaps a.2 b.2 ∧ (x = a.1 ∨ x = b.1) := by
  intro l
  induction l with
  | nil => exact fun acc x hx => Or.inl hx
  | cons b bs ih =>
    intro acc x hx
    rw [innerScan] at hx
    split at hx
    · exact Or.inl hx
    · rcases ih _ x hx with hmem | ⟨b', hb', hov, hx'⟩
      · split at hmem
        · next hcond =>
          rcases Finset.mem_insert.1 hmem with rfl | hmem
          · exact Or.inr ⟨b, List.mem_cons_self _ _, hcond, Or.inl rfl⟩
          · rcases Finset.mem_insert.1 hmem with rfl | hmem
            · exact Or.inr ⟨b, List.mem_cons_self _ _, hcond, Or.inr rfl⟩
            · exact Or.inl hmem
        · exact Or.inl hmem
      · exact Or.inr ⟨b', List.mem_cons_of_mem _ hb', hov, hx'⟩

theorem innerScan_complete (a b : ℕ × Row) :
    ∀ (l : List (ℕ × Row)) (acc : Finset ℕ),
      List.Pairwise (fun x y => rowKeyLe x y = true) l →
      b ∈ l → overlaps a.2 b.2 →
      a.1 ∈ innerScan a l acc ∧ b.1 ∈ innerScan a l acc := by
  intro l
  induction l with
  | nil => intro acc _ hb; simp at hb
  | cons c cs ih =>
    intro acc hpw hb hov
    rw [innerScan]
    rcases List.mem_cons.1 hb with rfl | hmem
    · -- the scan reaches `b` first: no break (overlap gives
      -- `b.start ≤ a.end`), and the overlap test fires
      rw [if_neg (not_lt.2 hov.2), if_pos ⟨hov.1, hov.2⟩]
      constructor
      · exact innerScan_subset a cs _ (Finset.mem_insert_self _ _)
      · exact innerScan_subset a cs _
          (Finset.mem_insert_of_mem (Finset.mem_insert_self _ _))
    · -- `c` comes before `b` in sorted order, so `c.start ≤ b.start ≤ a.end`:
      -- no break at `c`
      have hcb : rowKeyLe c b = true := (List.pairwise_cons.1 hpw).1 b hmem
      have hcs : c.2.start ≤ b.2.start := rowKeyLe_start hcb
      rw [if_neg (not_lt.2 (le_trans hcs hov.2))]
      exact ih _ (List.pairwise_cons.1 hpw).2 hmem hov

theorem sweep_subset :
    ∀ (l : List (ℕ × Row)) (acc : Finset ℕ), acc ⊆ sweep l acc := by
  intro l
  induction l with
  | nil => exact fun acc => Finset.Subset.refl acc
  | cons a rest ih =>
    intro acc
    rw [sweep]
    exact subset_trans (innerScan_subset a rest acc) (ih _)

theorem sweep_sound :
    ∀ (l : List (ℕ × Row)) (acc : Finset ℕ) (x : ℕ),
      (l.map Prod.fst).Nodup →
      x ∈ sweep l acc →
      x ∈ acc ∨ ∃ p ∈ l, ∃ q ∈ l, p.1 ≠ q.1 ∧ overlaps p.2 q.2 ∧ x = p.1 := by
  intro l
  induction l with
  | nil => exact fun acc x _ hx => Or.inl hx
  | cons a rest ih =>
    intro acc x hnd hx
    rw [sweep] at hx
    rw [List.map_cons, List.nodup_cons] at hnd
    rcases ih _ x hnd.2 hx with hmem | ⟨p, hp, q, hq, hpq, hov, rfl⟩
    · rcases innerScan_sound a rest acc x hmem with hacc | ⟨b, hb, hov, hx'⟩
      · exact Or.inl hacc
      · have hab : a.1 ≠ b.1 := by
          intro h0
          exact hnd.1 (h0 ▸ List.mem_map_of_mem Prod.fst hb)
        rcases hx' with rfl | rfl
        · exact Or.inr ⟨a, List.mem_cons_self _ _, b,
            List.mem_cons_of_mem _ hb, hab, hov, rfl⟩
        · exact Or.inr ⟨b, List.mem_cons_of_mem _ hb, a,
            List.mem_cons_self _ _, fun h0 => hab h0.symm,
            ⟨hov.2, hov.1⟩, rfl⟩
    · exact Or.inr ⟨p, List.mem_cons_of_mem _ hp, q,
        List.mem_cons_of_mem _ hq, hpq, hov, rfl⟩

theorem sweep_complete (p q : ℕ × Row) :
    ∀ (u v : List (ℕ × Row)) (acc : Finset ℕ),
      List.Pairwise (fun x y => rowKeyLe x y = true) (u ++ p :: v) →
      q ∈ v → overlaps p.2 q.2 →
      p.1 ∈ sweep (u ++ p :: v) acc ∧ q.1 ∈ sweep (u ++ p :: v) acc := by
  intro u
  induction u with
  | nil =>
    intro v acc hpw hq hov
    rw [List.nil_append, sweep]
    have hpw' : List.Pairwise (fun x y => rowKeyLe x y = true) v :=
      (List.pairwise_cons.1 hpw).2
    obtain ⟨h1, h2⟩ := innerScan_complete p q v acc hpw' hq hov
    exact ⟨sweep_subset v _ h1, sweep_subset v _ h2⟩
  | cons w u' ih =>
    intro v acc hpw hq hov
    rw [List.cons_append, sweep]
    exact ih v _ (List.pairwise_cons.1 (List.cons_append w u' (p :: v) ▸ hpw)).2 hq hov

theorem mem_split_pair {x y : ℕ × Row} :
    ∀ {l : List (ℕ × Row)}, x ∈ l → y ∈ l → x ≠ y →
      (∃ u v, l = u ++ x :: v ∧ y ∈ v) ∨
        (∃ u v, l = u ++ y :: v ∧ x ∈ v) := by
  intro l
  induction l with
  | nil => intro hx; simp at hx
  | cons a rest ih =>
    intro hx hy hxy
    rcases List.mem_cons.1 hx with rfl | hxmem
    · have hymem : y ∈ rest := by
        rcases List.mem_cons.1 hy with rfl | h
        · exact absurd rfl hxy
        · exact h
      exact Or.inl ⟨[], rest, rfl, hymem⟩
    · rcases List.mem_cons.1 hy with rfl | hymem
      · exact Or.inr ⟨[], rest, rfl, hxmem⟩
      · rcases ih hxmem hymem hxy with ⟨u, v, rfl, hmem⟩ | ⟨u, v, rfl, hmem⟩
        · exact Or.inl ⟨a :: u, v, rfl, hmem⟩
        · exact Or.inr ⟨a :: u, v, rfl, hmem⟩

theorem mem_enum_elim {rows : List Row} {k : ℕ} {r : Row}
    (h : (k, r) ∈ rows.enum) :
    ∃ hk : k < rows.length, rows.get ⟨k, hk⟩ = r := by
  rw [List.mk_mem_enum_iff_getElem?] at h
  have hk : k < rows.length := by
    by_contra hc
    rw [List.getElem?_eq_none (not_lt.1 hc)] at h
    cases h
  refine ⟨hk, ?_⟩
  rw [List.get_eq_getElem]
  rw [List.getElem?_eq_getElem hk] at h
  injection h with h1

/-- C3: `build_conflict_set` returns exactly the set of indices of records
whose inclusive day-span shares at least one calendar day with the
day-span of some record at a different index — the early break of the
forward sweep over the `(start, end, title)`-sorted order never skips an
overlapping pair. -/
theorem C3_conflict_set_exact (rows : List Row) (i : ℕ) :
    i ∈ build_conflict_set rows ↔
      ∃ j, ∃ hi : i < rows.length, ∃ hj : j < rows.length, i ≠ j ∧
        overlaps (rows.get ⟨i, hi⟩) (rows.get ⟨j, hj⟩) := by
  have hperm := List.mergeSort_perm rows.enum rowKeyLe
  have hsorted := List.sorted_mergeSort rowKeyLe_trans rowKeyLe_total rows.enum
  have hnodup : ((rows.enum.mergeSort rowKeyLe).map Prod.fst).Nodup := by
    have h1 : (rows.enum.map Prod.fst).Nodup := by
      rw [List.enum_map_fst]
      exact List.nodup_range _
    exact (hperm.map Prod.fst).nodup_iff.2 h1
  constructor
  · intro hmem
    rcases sweep_sound _ ∅ i hnodup hmem with h0 | ⟨p, hp, q, hq, hpq, hov, rfl⟩
    · simp at h0
    · rw [List.mem_mergeSort] at hp hq
      obtain ⟨p1, p2⟩ := p
      obtain ⟨q1, q2⟩ := q
      obtain ⟨hplen, hpget⟩ := mem_enum_elim hp
      obtain ⟨hqlen, hqget⟩ := mem_enum_elim hq
      exact ⟨q1, hplen, hqlen, hpq, by rw [hpget, hqget]; exact hov⟩
  · rintro ⟨j, hi, hj, hij, hov⟩
    have hx : (i, rows.get ⟨i, hi⟩) ∈ rows.enum.mergeSort rowKeyLe := by
      rw [List.mem_mergeSort, List.mk_mem_enum_iff_getElem?,
        List.getElem?_eq_getElem hi, List.get_eq_getElem]
    have hy : (j, rows.get ⟨j, hj⟩) ∈ rows.enum.mergeSort rowKeyLe := by
      rw [List.mem_mergeSort, List.mk_mem_enum_iff_getElem?,
        List.getElem?_eq_getElem hj, List.get_eq_getElem]
    have hxy : ((i, rows.get ⟨i, hi⟩) : ℕ × Row) ≠ (j, rows.get ⟨j, hj⟩) := by
      intro h0
      injection h0 with h1 h2
      exact hij h1
    rcases mem_split_pair hx hy hxy with ⟨u, v, heq, hmem⟩ | ⟨u, v, heq, hmem⟩
    · have := sweep_complete _ _ u v ∅ (heq ▸ hsorted) hmem hov
      rw [← heq] at this
      exact this.1
    · have := sweep_complete _ _ u v ∅ (heq ▸ hsorted) hmem ⟨hov.2, hov.1⟩
      rw [← heq] at this
      exact this.2
